import Mathlib

set_option maxHeartbeats 1000000
set_option maxRecDepth 8000

/-!
Verification of the document-humanising pipeline (`humanise.py`): the
section classifier, the citation protection codec, and the convergence-loop
controller.  Python strings are modelled as lists of characters; the
`re`-module patterns used by the source are modelled by an explicit
backtracking regular-expression engine whose exploration order (leftmost
position, greedy quantifiers, left-first alternation) mirrors CPython's.
-/

namespace Humanise

/-- Python strings modelled as lists of characters. -/
abbrev Str := List Char

/-- Characters stripped by Python `str.strip()` / matched by `\s` (ASCII range). -/
def isPySpace (c : Char) : Bool :=
  c = ' ' || c = '\t' || c = '\n' || c = '\r' || c = '\x0b' || c = '\x0c'

/-- Python `str.strip()`. -/
def pyStrip (s : Str) : Str :=
  ((s.dropWhile isPySpace).reverse.dropWhile isPySpace).reverse

/-- Python `str.lower()` (ASCII model). -/
def toLowerStr (s : Str) : Str := s.map Char.toLower

/-- `needle` is a prefix of `hay` (used to model `str.startswith` and scanning). -/
def leadsWith : Str → Str → Bool
  | [], _ => true
  | _ :: _, [] => false
  | p :: ps, c :: cs => p = c && leadsWith ps cs

/-- Python `needle in hay` substring test. -/
def containsStr (hay needle : Str) : Bool :=
  hay.tails.any (fun t => leadsWith needle t)

theorem dropWhile_length_le (p : Char → Bool) (l : Str) :
    (l.dropWhile p).length ≤ l.length := by
  induction l with
  | nil => simp
  | cons c cs ih =>
    simp only [List.dropWhile]
    split
    · exact Nat.le_succ_of_le ih
    · simp

/-- Accumulator scan for `pyWords`: `acc` is the current word, reversed. -/
def pyWordsGo : Str → Str → List Str
  | acc, [] => if acc = [] then [] else [acc.reverse]
  | acc, c :: cs =>
    if isPySpace c then
      if acc = [] then pyWordsGo [] cs else acc.reverse :: pyWordsGo [] cs
    else pyWordsGo (c :: acc) cs

/-- Python `str.split()` with no argument: maximal non-whitespace runs. -/
def pyWords (s : Str) : List Str := pyWordsGo [] s

/-- A cased character (ASCII model of Python's notion of cased). -/
def isCased (c : Char) : Bool := c.isUpper || c.isLower

/-- Python `str.isupper()`: at least one cased character and no lowercase one. -/
def pyIsUpper (s : Str) : Bool :=
  s.any isCased && s.all (fun c => !c.isLower)

/-- Helper scan for `str.istitle()`: tracks whether a cased character was seen
and whether the previous character was cased. -/
def pyIsTitleGo : Bool → Bool → Str → Bool
  | sawCased, _, [] => sawCased
  | sawCased, prevCased, c :: cs =>
    if c.isUpper then !prevCased && pyIsTitleGo true true cs
    else if c.isLower then prevCased && pyIsTitleGo true true cs
    else pyIsTitleGo sawCased false cs

/-- Python `str.istitle()`: uppercase letters only after uncased characters,
lowercase letters only after cased ones, and at least one cased character. -/
def pyIsTitle (s : Str) : Bool := pyIsTitleGo false false s

/-- Python `'\n'.split` model: split a string at newline characters.
`splitNl [] = [[]]`, matching `''.split('\n') == ['']`. -/
def splitNl : Str → List Str
  | [] => [[]]
  | c :: cs =>
    if c = '\n' then [] :: splitNl cs
    else
      match splitNl cs with
      | [] => [[c]]
      | h :: t => (c :: h) :: t

/-- Python `'\n'.join` model. -/
def joinNl : List Str → Str
  | [] => []
  | [x] => x
  | x :: y :: rest => x ++ '\n' :: joinNl (y :: rest)

/-! ### A backtracking regular-expression engine

The engine explores alternatives in CPython order: greedy quantifiers try the
longer continuation first, alternations are tried left to right, and matching
is attempted as a prefix of the given suffix.  The declarative relation
`RMatch` gives the language of a pattern; the continuation-passing matcher
`matchCPS` is proved sound and complete for it. -/

/-- Regular-expression abstract syntax: character classes, concatenation,
ordered alternation and (greedy) Kleene star. -/
inductive RE where
  | eps : RE
  | cls : (Char → Bool) → RE
  | seq : RE → RE → RE
  | alt : RE → RE → RE
  | star : RE → RE

/-- Declarative matching: `RMatch r s` holds when `s` is in the language of `r`. -/
inductive RMatch : RE → Str → Prop where
  | eps : RMatch .eps []
  | cls {p : Char → Bool} {c : Char} : p c = true → RMatch (.cls p) [c]
  | seq {a b u v} : RMatch a u → RMatch b v → RMatch (.seq a b) (u ++ v)
  | altL {a b u} : RMatch a u → RMatch (.alt a b) u
  | altR {a b u} : RMatch b u → RMatch (.alt a b) u
  | starNil {a} : RMatch (.star a) []
  | starCons {a u v} : RMatch a u → RMatch (.star a) v → RMatch (.star a) (u ++ v)

/-- Size of a regular expression, used only to compute a sufficient fuel. -/
def reSize : RE → ℕ
  | .eps => 1
  | .cls _ => 1
  | .seq a b => reSize a + reSize b + 1
  | .alt a b => reSize a + reSize b + 1
  | .star a => reSize a + 1

/-- Fuel-indexed continuation-passing backtracking matcher.  The first
successful branch in CPython exploration order wins; `none` with sufficient
fuel means no prefix of `s` matches `r` with `k` succeeding on the rest. -/
def matchCPS : ℕ → RE → Str → (Str → Option Str) → Option Str
  | 0, _, _, _ => none
  | _ + 1, .eps, s, k => k s
  | _ + 1, .cls p, s, k =>
    match s with
    | [] => none
    | c :: cs => if p c then k cs else none
  | f + 1, .seq a b, s, k => matchCPS f a s (fun s2 => matchCPS f b s2 k)
  | f + 1, .alt a b, s, k => (matchCPS f a s k).orElse (fun _ => matchCPS f b s k)
  | f + 1, .star a, s, k =>
    (matchCPS f a s (fun s2 =>
      if s2.length < s.length then matchCPS f (.star a) s2 k else none)).orElse
      (fun _ => k s)

/-- Fuel that is always sufficient for `matchCPS` on `r` over `s` (proved below). -/
def matchFuel (r : RE) (s : Str) : ℕ := (s.length + 1) * (reSize r + 1)

/-- Model of `re.match(r, s)`: try to match a prefix of `s`, returning the
matched prefix and the remaining suffix of the first (greedy-order) success. -/
def tryMatch (r : RE) (s : Str) : Option (Str × Str) :=
  match matchCPS (matchFuel r s) r s some with
  | none => none
  | some rest => some (s.take (s.length - rest.length), rest)

/-- Boolean form of `re.match`: does some prefix of `s` match `r`? -/
def reTest (r : RE) (s : Str) : Bool := (tryMatch r s).isSome

/-! ### The concrete patterns of the source -/

/-- Character class for a single literal character. -/
def rChar (c : Char) : RE := .cls (fun x => x = c)

/-- Literal string as a sequence of literal characters. -/
def rStr : Str → RE
  | [] => .eps
  | c :: cs => .seq (rChar c) (rStr cs)

/-- Case-insensitive literal character (for `re.IGNORECASE`). -/
def rCI (c : Char) : RE := .cls (fun x => x.toLower = c.toLower)

/-- Case-insensitive literal string. -/
def rStrCI : Str → RE
  | [] => .eps
  | c :: cs => .seq (rCI c) (rStrCI cs)

/-- `r+` as `r r*` (greedy). -/
def rPlus (r : RE) : RE := .seq r (.star r)

/-- `r?` as `r | ε` (greedy: the present branch is tried first). -/
def rOpt (r : RE) : RE := .alt r .eps

/-- `[A-Z]`. -/
def rUpper : RE := .cls Char.isUpper

/-- `[a-z]`. -/
def rLowerAZ : RE := .cls Char.isLower

/-- `[a-zA-Z]`. -/
def rAlphaAZ : RE := .cls (fun c => c.isUpper || c.isLower)

/-- `\d` (ASCII model). -/
def rDigit : RE := .cls Char.isDigit

/-- `\s` (ASCII model). -/
def rSpace : RE := .cls isPySpace

/-- `\w` (ASCII model). -/
def rWord : RE := .cls (fun c => c.isAlphanum || c = '_')

/-- `[A-Z][a-zA-Z]+`: an author surname. -/
def reName : RE := .seq rUpper (rPlus rAlphaAZ)

/-- `et\s+al\.?`. -/
def reEtAl : RE :=
  .seq (rChar 'e') (.seq (rChar 't') (.seq (rPlus rSpace)
    (.seq (rChar 'a') (.seq (rChar 'l') (rOpt (rChar '.'))))))

/-- `(?:et\s+al\.?|&|and)`, alternatives in source order. -/
def reConnector : RE := .alt reEtAl (.alt (rChar '&') (rStr ("and".toList)))

/-- `(?:\s+(?:et\s+al\.?|&|and)\s+[A-Z][a-zA-Z]+)*`. -/
def reMoreAuthors : RE :=
  .star (.seq (rPlus rSpace) (.seq reConnector (.seq (rPlus rSpace) reName)))

/-- `\d{4}`. -/
def reYear4 : RE := .seq rDigit (.seq rDigit (.seq rDigit rDigit))

/-- `r'\([A-Z][a-zA-Z]+(?:\s+(?:et\s+al\.?|&|and)\s+[A-Z][a-zA-Z]+)*,?\s*\d{4}[a-z]?\)'`. -/
def citePat1 : RE :=
  .seq (rChar '(') (.seq reName (.seq reMoreAuthors (.seq (rOpt (rChar ','))
    (.seq (.star rSpace) (.seq reYear4 (.seq (rOpt rLowerAZ) (rChar ')')))))))

/-- `r'\([A-Z][a-zA-Z]+\s+&\s+[A-Z][a-zA-Z]+,?\s*\d{4}\)'`. -/
def citePat2 : RE :=
  .seq (rChar '(') (.seq reName (.seq (rPlus rSpace) (.seq (rChar '&')
    (.seq (rPlus rSpace) (.seq reName (.seq (rOpt (rChar ','))
      (.seq (.star rSpace) (.seq reYear4 (rChar ')')))))))))

/-- `r'\[\d+(?:[-,]\s*\d+)*\]'`. -/
def citePat3 : RE :=
  .seq (rChar '[') (.seq (rPlus rDigit)
    (.seq (.star (.seq (.cls (fun c => c = '-' || c = ','))
      (.seq (.star rSpace) (rPlus rDigit)))) (rChar ']')))

/-- `r'\([A-Z][a-zA-Z]+,\s*\d{4},\s*p\.?\s*\d+\)'`. -/
def citePat4 : RE :=
  .seq (rChar '(') (.seq reName (.seq (rChar ',') (.seq (.star rSpace)
    (.seq reYear4 (.seq (rChar ',') (.seq (.star rSpace) (.seq (rChar 'p')
      (.seq (rOpt (rChar '.')) (.seq (.star rSpace)
        (.seq (rPlus rDigit) (rChar ')')))))))))))

/-- `CITATION_PATTERNS`, in source order. -/
def CITATION_PATTERNS : List RE := [citePat1, citePat2, citePat3, citePat4]

/-- `r'^\d+(\.\d+)*\.?\s+\w'` — numbered-outline heading prefix. -/
def headNumPat : RE :=
  .seq (rPlus rDigit) (.seq (.star (.seq (rChar '.') (rPlus rDigit)))
    (.seq (rOpt (rChar '.')) (.seq (rPlus rSpace) rWord)))

/-- `r'^(chapter|section|part|appendix)\s+\w'` with `re.IGNORECASE`. -/
def headChapPat : RE :=
  .seq (.alt (rStrCI ("chapter".toList)) (.alt (rStrCI ("section".toList))
    (.alt (rStrCI ("part".toList)) (rStrCI ("appendix".toList)))))
    (.seq (rPlus rSpace) rWord)

/-! ### The source's line classifiers -/

/-- `REFERENCES_KEYWORDS` from the source. -/
def REFERENCES_KEYWORDS : List Str :=
  (["references", "bibliography", "works cited", "citations", "sources"]).map
    String.toList

/-- `TITLE_PAGE_KEYWORDS` from the source. -/
def TITLE_PAGE_KEYWORDS : List Str :=
  (["submitted to", "submitted by", "student id", "student number",
    "registration", "course code", "module", "supervisor", "lecturer",
    "professor", "university", "college", "faculty", "department",
    "school of", "bachelor", "master", "assignment", "thesis",
    "dissertation", "project", "date:", "name:"]).map String.toList

/-- `is_heading` from the source: trimmed short lines that look like headings. -/
def is_heading (text : Str) : Bool :=
  let t := pyStrip text
  if t = [] then false
  else if t.length < 100 then
    if reTest headNumPat t then true
    else if pyIsUpper t && decide ((pyWords t).length ≤ 8) then true
    else if decide ((pyWords t).length ≤ 8) && pyIsTitle t then true
    else if reTest headChapPat t then true
    else false
  else false

/-- `is_title_page_content` from the source: case-insensitive substring test
against the front-matter keyword list. -/
def is_title_page_content (text : Str) : Bool :=
  TITLE_PAGE_KEYWORDS.any (fun kw => containsStr (toLowerStr text) kw)

/-- Model of `re.match(rf'^{keyword}\s*$', text_lower)`: the keyword literally,
then only whitespace to the end (the keywords contain no regex metacharacters,
and `text_lower` never ends in a newline because it has been stripped). -/
def refKeywordRe (kw s : Str) : Bool :=
  leadsWith kw s && (s.drop kw.length).all isPySpace

/-- `is_references_section` from the source. -/
def is_references_section (text : Str) : Bool :=
  let tl := toLowerStr (pyStrip text)
  REFERENCES_KEYWORDS.any (fun kw =>
    (decide (tl = kw) || leadsWith (kw ++ ['\n']) tl) || refKeywordRe kw tl)

/-! ### The citation codec -/

/-- Python `s.replace(old, new, 1)`: replace the leftmost occurrence of `old`.
(The empty-`old` case follows Python's insertion semantics; the source only
ever calls this with nonempty citation strings.) -/
def replaceFirst : Str → Str → Str → Str
  | s, [], repl => repl ++ s
  | [], _ :: _, _ => []
  | c :: cs, p :: ps, repl =>
    if leadsWith (p :: ps) (c :: cs) then repl ++ (c :: cs).drop (p :: ps).length
    else c :: replaceFirst cs (p :: ps) repl

/-- Fuel-indexed scan for `replaceAll`; each step consumes at least one
character of `s`, so `s.length + 1` fuel always suffices (proved below). -/
def replaceAllGo : ℕ → Str → Str → Str → Str
  | 0, s, _, _ => s
  | _ + 1, s, [], _ => s
  | _ + 1, [], _ :: _, _ => []
  | f + 1, c :: cs, p :: ps, repl =>
    if leadsWith (p :: ps) (c :: cs) then
      repl ++ replaceAllGo f ((c :: cs).drop (p :: ps).length) (p :: ps) repl
    else c :: replaceAllGo f cs (p :: ps) repl

/-- Python `s.replace(old, new)`: replace all occurrences, scanning left to
right without overlap.  (The empty-`old` case is never used by the source.) -/
def replaceAll (s pat repl : Str) : Str := replaceAllGo (s.length + 1) s pat repl

/-- Fuel-indexed scan for `finditer`; the scan position advances at every
step, so `s.length + 1` fuel always suffices (proved below). -/
def finditerGo : ℕ → RE → Str → List Str
  | 0, _, _ => []
  | _ + 1, _, [] => []
  | f + 1, r, c :: cs =>
    match tryMatch r (c :: cs) with
    | some (m, rest) =>
      if rest.length < (c :: cs).length then m :: finditerGo f r rest
      else m :: finditerGo f r cs
    | none => finditerGo f r cs

/-- Model of `re.finditer(r, s)`: all non-overlapping matches, scanning left
to right, each found at the leftmost possible start.  Only the matched
substrings are returned, in encounter order. -/
def finditer (r : RE) (s : Str) : List Str := finditerGo (s.length + 1) r s

/-- Fuel-indexed decimal printer; `n + 1` fuel always suffices. -/
def natStrGo : ℕ → ℕ → Str
  | 0, _ => []
  | f + 1, n =>
    if n < 10 then [Nat.digitChar n]
    else natStrGo f (n / 10) ++ [Nat.digitChar (n % 10)]

/-- Decimal representation of a natural number (Python `f"{counter}"`). -/
def natStr (n : ℕ) : Str := natStrGo (n + 1) n

/-- The synthetic placeholder token `f"__CITATION_{counter}__"`. -/
def placeholderStr (n : ℕ) : Str :=
  ("__CITATION_".toList) ++ natStr n ++ ("__".toList)

/-- One pass of `protect_citations` for a single pattern: materialise the
`finditer` matches over the snapshot, then substitute each in turn with
`str.replace(citation, placeholder, 1)`, numbering placeholders in encounter
order across all patterns. -/
def protectPass (r : RE) (st : Str × (List (Str × Str) × ℕ)) :
    Str × (List (Str × Str) × ℕ) :=
  (finditer r st.1).foldl
    (fun acc m =>
      let ph := placeholderStr acc.2.2
      (replaceFirst acc.1 m ph, (acc.2.1 ++ [(ph, m)], acc.2.2 + 1)))
    st

/-- `protect_citations` from the source.  The placeholder dictionary is
modelled as an association list in insertion order (Python dicts preserve
insertion order, and the numbered keys are unique). -/
def protect_citations (text : Str) : Str × List (Str × Str) :=
  let res := CITATION_PATTERNS.foldl (fun st r => protectPass r st) (text, ([], 0))
  (res.1, res.2.1)

/-- `restore_citations` from the source: substitute every placeholder back,
in insertion order. -/
def restore_citations (text : Str) (phs : List (Str × Str)) : Str :=
  phs.foldl (fun t pc => replaceAll t pc.1 pc.2) text

/-! ### The section classifier -/

/-- The mutable state of the `extract_document_sections` loop.  The headings
dictionary is modelled as an association list in insertion order (its integer
keys strictly increase, so insertion order is document order). -/
structure ExtractState where
  title_page : List Str
  body : List Str
  references : List Str
  headings : List (ℕ × Str)
  in_title_page : Bool
  in_references : Bool
  body_started : Bool
deriving Repr, DecidableEq

/-- Initial state of the loop. -/
def extractInit : ExtractState :=
  ⟨[], [], [], [], true, false, false⟩

/-- The body-start cue test of the source:
`any(kw in stripped.lower() for kw in ['introduction','abstract','chapter 1','1.'])`. -/
def bodyCue (stripped : Str) : Bool :=
  (["introduction", "abstract", "chapter 1", "1."]).any
    (fun kw => containsStr (toLowerStr stripped) (kw.toList))

/-- Body handling for one line (the fall-through part of the loop): record a
heading index if the stripped line is a heading, then append the line. -/
def bodyStep (st : ExtractState) (line : Str) : ExtractState :=
  let stripped := pyStrip line
  let st1 :=
    if is_heading stripped then
      { st with headings := st.headings ++ [(st.body.length, stripped)] }
    else st
  { st1 with body := st1.body ++ [line] }

/-- One iteration of the `extract_document_sections` loop. -/
def extractStep (st : ExtractState) (line : Str) : ExtractState :=
  let stripped := pyStrip line
  if is_references_section stripped then
    { st with in_references := true, in_title_page := false,
              references := st.references ++ [line] }
  else if st.in_references then
    { st with references := st.references ++ [line] }
  else if st.in_title_page then
    if is_title_page_content stripped ||
        (!st.body_started && decide (st.title_page.length < 15)) then
      let st1 := { st with title_page := st.title_page ++ [line] }
      if is_heading stripped && !is_title_page_content stripped then
        if bodyCue stripped then
          { st1 with in_title_page := false, body_started := true,
                     body := st1.body ++ [line],
                     headings := st1.headings ++ [(st1.body.length, stripped)] }
        else st1
      else st1
    else bodyStep { st with in_title_page := false, body_started := true } line
  else bodyStep st line

/-- `extract_document_sections` from the source: fold the per-line step over
the newline-split document. -/
def extract_document_sections (text : Str) : ExtractState :=
  (splitNl text).foldl extractStep extractInit

/-- `reconstruct_document` from the source: join each nonempty section with
newlines, then join the nonempty sections with newlines. -/
def reconstruct_document (s : ExtractState) : Str :=
  joinNl ((if s.title_page ≠ [] then [joinNl s.title_page] else []) ++
          (if s.body ≠ [] then [joinNl s.body] else []) ++
          (if s.references ≠ [] then [joinNl s.references] else []))

/-! ### One rewrite cycle (`humanise_text`)

The Claude call is an external collaborator; it is modelled as an oracle
function receiving exactly the data the source sends it: the protected body
text and the heading list capped to the first 20 entries
(`headings_list[:20]` in the prompt). -/

/-- The heading list the source passes to the rewrite oracle for a document. -/
def headingsSent (text : Str) : List Str :=
  (((extract_document_sections text).headings).map Prod.snd).take 20

/-- `humanise_text` from the source, with the rewrite oracle abstracted:
segment, protect the body's citations, invoke the oracle on the protected
body and the capped heading list, restore citations, splice the new body into
the section map and reassemble. -/
def humanise_text (oracle : Str → List Str → Str) (text : Str) : Str :=
  let sections := extract_document_sections text
  let body_text := joinNl sections.body
  let protRes := protect_citations body_text
  let humanised_body := oracle protRes.1 (headingsSent text)
  let restored := restore_citations humanised_body protRes.2
  reconstruct_document { sections with body := splitNl restored }

/-! ### Score parsing and the convergence-loop controller

The two oracle calls (`detect_ai_in_file` / `detect_ai_in_text` and the
Claude rewrite inside `humanise_text`) are external collaborators; the
controller model abstracts them as functions supplied per run.  Scores are
rationals (Python floats compared with `<=` / `<`; only finite decimal
values arise from the modelled parser). -/

/-- The `data.fakePercentage` field of a ZeroGPT response: absent (or absent
`data`), a JSON number, or a string. -/
inductive PctField where
  | absent : PctField
  | num (q : ℚ) : PctField
  | strv (s : Str) : PctField
deriving DecidableEq

/-- A detection-oracle response, reduced to the fields `parse_ai_percentage`
reads: the `success` flag and `data.fakePercentage`. -/
structure DetectResult where
  success : Bool
  fakePercentage : PctField
deriving DecidableEq

/-- Accumulated decimal value of a digit string. -/
def digitsVal (ds : Str) : ℕ :=
  ds.foldl (fun a c => a * 10 + (c.toNat - 48)) 0

/-- Optional exponent suffix of a float literal (`e`/`E`, optional sign,
digits); `some` of the scale factor on success, consuming the whole rest. -/
def expPart (s : Str) : Option ℚ :=
  match s with
  | [] => some 1
  | c :: r =>
    if c = 'e' || c = 'E' then
      let sr : Bool × Str :=
        match r with
        | '+' :: rr => (false, rr)
        | '-' :: rr => (true, rr)
        | _ => (false, r)
      let ds := sr.2.takeWhile Char.isDigit
      if ds ≠ [] ∧ sr.2.dropWhile Char.isDigit = [] then
        some (if sr.1 then (1 : ℚ) / 10 ^ digitsVal ds else (10 : ℚ) ^ digitsVal ds)
      else none
    else none

/-- Model of Python `float(s)` on finite decimal literals: optional
whitespace, optional sign, digits with an optional fractional part, optional
exponent.  `none` models `ValueError` (the forms `inf`/`nan` and underscore
separators do not occur in the modelled data). -/
def pyFloatOpt (s : Str) : Option ℚ :=
  let t := pyStrip s
  let st : ℚ × Str :=
    match t with
    | '+' :: r => (1, r)
    | '-' :: r => (-1, r)
    | _ => (1, t)
  let intPart := st.2.takeWhile Char.isDigit
  let rest1 := st.2.dropWhile Char.isDigit
  match rest1 with
  | '.' :: r2 =>
    let fracPart := r2.takeWhile Char.isDigit
    let rest2 := r2.dropWhile Char.isDigit
    if intPart = [] ∧ fracPart = [] then none
    else
      (expPart rest2).map (fun e =>
        st.1 * ((digitsVal intPart : ℚ) +
          (digitsVal fracPart : ℚ) / 10 ^ fracPart.length) * e)
  | _ =>
    if intPart = [] then none
    else (expPart rest1).map (fun e => st.1 * (digitsVal intPart : ℚ) * e)

/-- `fake_percentage.replace("%", "").strip()` from the source. -/
def stripPct (s : Str) : Str := pyStrip (s.filter (fun c => c ≠ '%'))

/-- `parse_ai_percentage` from the source: `-1` when the response is not
successful; otherwise the `fakePercentage` value, with a missing field
defaulting to `0` and an unparsable string silently becoming `0`. -/
def parse_ai_percentage (r : DetectResult) : ℚ :=
  if !r.success then -1
  else
    match r.fakePercentage with
    | .absent => 0
    | .num q => q
    | .strv s =>
      match pyFloatOpt (stripPct s) with
      | some q => q
      | none => 0

/-- Outcome classification of a run of `main`'s processing phase. -/
inductive RunStatus where
  | success : RunStatus
  | oracleFailure : RunStatus
  | extractionError : RunStatus
  | exhausted : RunStatus
deriving DecidableEq

/-- Observable outcome of a run: final status, version counter, final text
and score, the versioned candidate files written (version, contents), and the
number of rewrite-oracle calls made. -/
structure RunOutcome where
  status : RunStatus
  version : ℕ
  finalText : Str
  finalScore : ℚ
  written : List (ℕ × Str)
  rewriteCalls : ℕ
deriving DecidableEq

/-- `max_iterations` from the source. -/
def max_iterations : ℕ := 10

/-- The humanisation `while` loop of `main` (source lines 519–562):
while the current score exceeds the target and the version is within the
cap, rewrite, persist the candidate, re-scan, and either stop (failed parse,
or score at/below target) or feed the candidate forward. -/
def convergeLoop (target : ℚ) (maxIter : ℕ) (hum : ℕ → Str → Str)
    (rescan : ℕ → DetectResult) (version : ℕ) (current : Str) (curScore : ℚ)
    (written : List (ℕ × Str)) (calls : ℕ) : RunOutcome :=
  if h : target < curScore ∧ version ≤ maxIter then
    let cand := hum version current
    let written2 := written ++ [(version, cand)]
    let p := parse_ai_percentage (rescan version)
    if p < 0 then ⟨.oracleFailure, version, cand, p, written2, calls + 1⟩
    else if p ≤ target then ⟨.success, version, cand, p, written2, calls + 1⟩
    else convergeLoop target maxIter hum rescan (version + 1) cand p written2 (calls + 1)
  else ⟨.exhausted, version, current, curScore, written, calls⟩
termination_by maxIter + 1 - version
decreasing_by
  omega

/-- The processing phase of `main` after a file and target are selected
(source lines 492–564): baseline scan, early exits, then the loop.  The
rewrite pipeline and re-scan responses are supplied as oracles indexed by
the version number. -/
def runMain (baseline : DetectResult) (hum : ℕ → Str → Str)
    (rescan : ℕ → DetectResult) (extracted : Str) (target : ℚ)
    (maxIter : ℕ) : RunOutcome :=
  let p0 := parse_ai_percentage baseline
  if p0 < 0 then ⟨.oracleFailure, 0, extracted, p0, [], 0⟩
  else if p0 ≤ target then ⟨.success, 0, extracted, p0, [], 0⟩
  else if pyStrip extracted = [] then ⟨.extractionError, 0, extracted, p0, [], 0⟩
  else convergeLoop target maxIter hum rescan 1 extracted p0 [] 0

/-- The sequence of candidate texts: version `k`'s candidate is the rewrite
of version `k-1`'s (version 0 is the originally extracted text). -/
def candSeq (hum : ℕ → Str → Str) (extracted : Str) : ℕ → Str
  | 0 => extracted
  | k + 1 => hum (k + 1) (candSeq hum extracted k)

/-! ## Claim C1: the segmentation round trip -/

/-- C1: the round-trip law `reassemble(segment(D)) = D` fails on the code.
On the single-line document `"Introduction"`, `extract_document_sections`
retains the line in `title_page` (fewer than 15 lines so far) and, because it
is a heading containing a body-start cue, appends the same line to `body` as
well; `reconstruct_document` therefore emits the line twice.  The claim (and
the spec's §3 invariant) say the reconstruction contains each line exactly
once, so the code contradicts the stated round-trip law. -/
theorem C1_round_trip_duplicates_cue_line :
    reconstruct_document (extract_document_sections ("Introduction".toList)) =
      ("Introduction\nIntroduction".toList) ∧
    reconstruct_document (extract_document_sections ("Introduction".toList)) ≠
      ("Introduction".toList) := by
  exact ⟨by decide, by decide⟩

/-! ## Claim C4: the heading predicate -/

/-- The disjunction of heading shapes listed by the claim, over a trimmed
line `t`: a numbered-outline prefix, fully upper-case with at most 8 words,
at most 8 words in title case, or a chapter/section/part/appendix prefix. -/
def headingAlt (t : Str) : Prop :=
  reTest headNumPat t = true ∨
  (pyIsUpper t = true ∧ (pyWords t).length ≤ 8) ∨
  ((pyWords t).length ≤ 8 ∧ pyIsTitle t = true) ∨
  reTest headChapPat t = true

instance (t : Str) : Decidable (headingAlt t) := by
  unfold headingAlt
  infer_instance

/-- C4: `is_heading` returns true exactly when the trimmed line is under 100
characters and satisfies one of the four heading shapes; in particular
`"1.2 Background"` and `"INTRODUCTION"` are headings, while
`"the quick brown fox jumps"` and any line whose trimmed text has length at
least 100 (e.g. 150 characters) are not, and whitespace-only lines never
are. -/
theorem C4_is_heading_characterisation :
    (∀ s : Str, is_heading s = true ↔
      ((pyStrip s).length < 100 ∧ headingAlt (pyStrip s))) ∧
    is_heading ("1.2 Background".toList) = true ∧
    is_heading ("INTRODUCTION".toList) = true ∧
    is_heading ("the quick brown fox jumps".toList) = false ∧
    is_heading (List.replicate 150 'a') = false ∧
    (∀ s : Str, 100 ≤ (pyStrip s).length → is_heading s = false) ∧
    (∀ s : Str, pyStrip s = [] → is_heading s = false) := by
  have hchar : ∀ s : Str, is_heading s = true ↔
      ((pyStrip s).length < 100 ∧ headingAlt (pyStrip s)) := by
    intro s
    simp only [is_heading]
    by_cases h0 : pyStrip s = []
    · rw [h0]
      simp only [if_pos rfl]
      constructor
      · intro h; exact absurd h (by decide)
      · rintro ⟨-, h⟩
        exact absurd h (by decide)
    · rw [if_neg h0]
      by_cases h1 : (pyStrip s).length < 100
      · rw [if_pos h1]
        cases hA : reTest headNumPat (pyStrip s) with
        | true => simp [headingAlt, hA, h1]
        | false =>
          cases hB : pyIsUpper (pyStrip s) with
          | true =>
            by_cases hW : (pyWords (pyStrip s)).length ≤ 8
            · simp [headingAlt, hA, hB, hW, h1]
            · cases hC : pyIsTitle (pyStrip s) <;>
                cases hD : reTest headChapPat (pyStrip s) <;>
                  simp [headingAlt, hA, hB, hC, hD, hW, h1]
          | false =>
            by_cases hW : (pyWords (pyStrip s)).length ≤ 8 <;>
              cases hC : pyIsTitle (pyStrip s) <;>
                cases hD : reTest headChapPat (pyStrip s) <;>
                  simp [headingAlt, hA, hB, hC, hD, hW, h1]
      · rw [if_neg h1]
        simp [h1]
  refine ⟨hchar, by decide, by decide, by decide, by decide, ?_, ?_⟩
  · intro s hs
    by_cases he : pyStrip s = []
    · rw [he] at hs
      simp at hs
    · simp only [is_heading]
      rw [if_neg he, if_neg (by omega)]
  · intro s hs
    simp [is_heading, hs]

/-- Witness for C4: the universally quantified conjuncts applied at concrete
inputs, discharging their hypotheses. -/
theorem C4_is_heading_characterisation_witness :
    is_heading (List.replicate 120 'b') = false ∧
    is_heading (("   ").toList) = false ∧
    (is_heading ("Chapter 1".toList) = true ↔
      ((pyStrip ("Chapter 1".toList)).length < 100 ∧
        headingAlt (pyStrip ("Chapter 1".toList)))) :=
  ⟨C4_is_heading_characterisation.2.2.2.2.2.1 (List.replicate 120 'b') (by decide),
   C4_is_heading_characterisation.2.2.2.2.2.2 (("   ").toList) (by decide),
   C4_is_heading_characterisation.1 ("Chapter 1".toList)⟩

/-! ## Claim C5: the title-page retention window -/

/-- A 16-line document whose lines carry no front-matter keyword, no heading
cue and no references keyword. -/
def sixteenPlainLines : Str := joinNl (List.replicate 16 (['x']))

/-- C5 counterexample: the claim says a non-front-matter line is retained on
the title page whenever at most 15 lines have accumulated, so all 16 lines of
`sixteenPlainLines` would stay in `title_page` and `body` would be empty.
The code retains only 15 lines (its guard is `len(title_page) < 15`) and
sends the 16th line to `body`. -/
theorem C5_threshold_counterexample :
    (extract_document_sections sixteenPlainLines).title_page =
      List.replicate 15 (['x']) ∧
    (extract_document_sections sixteenPlainLines).body = [['x']] := by
  exact ⟨by decide, by decide⟩

/-- C5 (amended): while the classifier is in titlePage mode (and the line
does not open the references zone), a line is retained in `title_page` iff it
contains a front-matter keyword, or the body has not started and *fewer than
15* lines have accumulated; with 15 lines already accumulated a
non-front-matter line falls through to body handling. -/
theorem bodyStep_title_page (st : ExtractState) (line : Str) :
    (bodyStep st line).title_page = st.title_page := by
  simp only [bodyStep]
  split <;> rfl

theorem C5_title_retention_amended (st : ExtractState) (line : Str)
    (h1 : st.in_title_page = true) (h2 : st.in_references = false)
    (hr : is_references_section (pyStrip line) = false) :
    ((extractStep st line).title_page = st.title_page ++ [line]) ↔
      (is_title_page_content (pyStrip line) = true ∨
        (st.body_started = false ∧ st.title_page.length < 15)) := by
  simp only [extractStep]
  rw [if_neg (by rw [hr]; exact Bool.false_ne_true),
      if_neg (by rw [h2]; exact Bool.false_ne_true), if_pos h1]
  by_cases hcase : (is_title_page_content (pyStrip line) ||
      (!st.body_started && decide (st.title_page.length < 15))) = true
  · rw [if_pos hcase]
    have hrhs : is_title_page_content (pyStrip line) = true ∨
        (st.body_started = false ∧ st.title_page.length < 15) := by
      rcases (Bool.or_eq_true _ _).mp hcase with h | h
      · exact Or.inl h
      · rcases (Bool.and_eq_true _ _).mp h with ⟨ha, hb⟩
        refine Or.inr ⟨?_, of_decide_eq_true hb⟩
        cases hsb : st.body_started
        · rfl
        · rw [hsb] at ha
          exact absurd ha (by decide)
    split_ifs <;> exact iff_of_true rfl hrhs
  · rw [if_neg hcase]
    refine iff_of_false ?_ ?_
    · rw [bodyStep_title_page]
      simp
    · rintro (h | ⟨hb, hl⟩)
      · exact hcase (by rw [h, Bool.true_or])
      · refine hcase ?_
        rw [hb]
        simp [hl]

/-- Witness state for the C5 amended theorem: 15 accumulated lines, body not
started. -/
def fifteenState : ExtractState :=
  ⟨List.replicate 15 (['x']), [], [], [], true, false, false⟩

/-- Witness for C5 (amended): at a state with exactly 15 accumulated lines
and a keyword-free line, the retention test is decided by the amended rule. -/
theorem C5_title_retention_amended_witness :
    ((extractStep fifteenState (['y'])).title_page =
        fifteenState.title_page ++ [['y']]) ↔
      (is_title_page_content (pyStrip (['y'])) = true ∨
        (fifteenState.body_started = false ∧
          fifteenState.title_page.length < 15)) :=
  C5_title_retention_amended fifteenState (['y']) rfl rfl (by decide)

/-! ## Claim C3: the references zone is terminal

Auxiliary string lemmas: characterising `leadsWith`, membership through
`pyStrip` and `splitNl`, and the fact that lowercasing cannot create
whitespace, which together show `is_references_section` holds exactly on the
lines whose trimmed, case-folded text equals a references keyword. -/

theorem leadsWith_iff {p s : Str} : leadsWith p s = true ↔ ∃ t, s = p ++ t := by
  induction p generalizing s with
  | nil =>
    simp [leadsWith]
  | cons a p ih =>
    cases s with
    | nil => simp [leadsWith]
    | cons c cs =>
      simp only [leadsWith, Bool.and_eq_true, decide_eq_true_eq, ih]
      constructor
      · rintro ⟨rfl, t, rfl⟩
        exact ⟨t, rfl⟩
      · rintro ⟨t, ht⟩
        injection ht with h1 h2
        exact ⟨h1.symm, t, h2⟩

theorem mem_of_mem_dropWhile {p : Char → Bool} {c : Char} {l : Str}
    (h : c ∈ l.dropWhile p) : c ∈ l := by
  induction l with
  | nil => simp at h
  | cons a l ih =>
    rw [List.dropWhile_cons] at h
    split at h
    · exact List.mem_cons_of_mem _ (ih h)
    · exact h

theorem mem_pyStrip {c : Char} {s : Str} (h : c ∈ pyStrip s) : c ∈ s := by
  unfold pyStrip at h
  rw [List.mem_reverse] at h
  have h1 := mem_of_mem_dropWhile h
  rw [List.mem_reverse] at h1
  exact mem_of_mem_dropWhile h1

theorem splitNl_no_newline : ∀ (s : Str), ∀ l ∈ splitNl s, '\n' ∉ l := by
  intro s
  induction s with
  | nil =>
    intro l hl
    simp only [splitNl, List.mem_singleton] at hl
    simp [hl]
  | cons c cs ih =>
    intro l hl
    by_cases hc : c = '\n'
    · rw [splitNl, if_pos hc] at hl
      rcases List.mem_cons.mp hl with rfl | hl
      · simp
      · exact ih l hl
    · rw [splitNl, if_neg hc] at hl
      cases hsp : splitNl cs with
      | nil =>
        rw [hsp] at hl
        simp only [List.mem_singleton] at hl
        subst hl
        intro hmem
        rcases List.mem_singleton.mp hmem with rfl
        exact hc rfl
      | cons hd tl =>
        rw [hsp] at hl
        rcases List.mem_cons.mp hl with rfl | hl
        · intro hmem
          rcases List.mem_cons.mp hmem with h | h
          · exact hc h.symm
          · exact ih hd (hsp ▸ List.mem_cons_self hd tl) h
        · exact ih l (hsp ▸ List.mem_cons_of_mem hd hl)

theorem dropWhile_cons_false {p : Char → Bool} {l t : Str} {c : Char}
    (h : l.dropWhile p = c :: t) : p c = false := by
  induction l with
  | nil => simp at h
  | cons a l ih =>
    rw [List.dropWhile_cons] at h
    split at h
    · exact ih h
    · next hpa =>
      injection h with h1 _
      subst h1
      cases hpb : p a
      · rfl
      · exact absurd hpb hpa

theorem dropWhile_is_a_tail {p : Char → Bool} (l : Str) :
    ∃ w, l = w ++ l.dropWhile p := by
  induction l with
  | nil => exact ⟨[], rfl⟩
  | cons a l ih =>
    rw [List.dropWhile_cons]
    split
    · obtain ⟨w, hw⟩ := ih
      exact ⟨a :: w, by rw [List.cons_append, ← hw]⟩
    · exact ⟨[], rfl⟩

theorem pyStrip_no_trailing {s t : Str} {c : Char} (h : pyStrip s = t ++ [c]) :
    isPySpace c = false := by
  have h2 : (s.dropWhile isPySpace).reverse.dropWhile isPySpace = c :: t.reverse := by
    have h3 := congrArg List.reverse h
    rw [pyStrip, List.reverse_reverse, List.reverse_append] at h3
    simpa using h3
  exact dropWhile_cons_false h2

theorem pyStrip_head_not {s : Str} {c : Char} {t : Str} (h : pyStrip s = c :: t) :
    isPySpace c = false := by
  have h1 : ((s.dropWhile isPySpace).reverse.dropWhile isPySpace) =
      t.reverse ++ [c] := by
    have h2 := congrArg List.reverse h
    unfold pyStrip at h2
    rw [List.reverse_reverse, List.reverse_cons] at h2
    exact h2
  obtain ⟨w, hw⟩ := dropWhile_is_a_tail (p := isPySpace) (s.dropWhile isPySpace).reverse
  rw [h1] at hw
  have h3 : s.dropWhile isPySpace = c :: (w ++ t.reverse).reverse := by
    have h4 := congrArg List.reverse hw
    rw [List.reverse_reverse, ← List.append_assoc, List.reverse_append] at h4
    simpa using h4
  exact dropWhile_cons_false h3

theorem dropWhile_eq_self_of_head {p : Char → Bool} {c : Char} {t : Str}
    (h : p c = false) : (c :: t).dropWhile p = c :: t := by
  rw [List.dropWhile_cons, if_neg (by simp [h])]

theorem pyStrip_idem (s : Str) : pyStrip (pyStrip s) = pyStrip s := by
  rcases List.eq_nil_or_concat (pyStrip s) with hnil | ⟨y, d, hy⟩
  · rw [hnil]
    rfl
  · rw [List.concat_eq_append] at hy
    have hd : isPySpace d = false := pyStrip_no_trailing hy
    cases hx : pyStrip s with
    | nil =>
      rw [hx] at hy
      exact absurd hy.symm (by simp)
    | cons c r =>
      have hc : isPySpace c = false := pyStrip_head_not hx
      have hcr : c :: r = y ++ [d] := by rw [← hx, hy]
      unfold pyStrip
      rw [dropWhile_eq_self_of_head hc]
      have hrev : (c :: r).reverse = d :: y.reverse := by
        rw [hcr]
        simp
      rw [hrev, dropWhile_eq_self_of_head hd, ← hrev, List.reverse_reverse]

theorem toLower_toNat_of_upper {c : Char} (h65 : 65 ≤ c.toNat) (h90 : c.toNat ≤ 90) :
    (Char.toLower c).toNat = c.toNat + 32 := by
  unfold Char.toLower
  rw [if_pos ⟨h65, h90⟩]
  have hval : (c.toNat + 32).isValidChar := Or.inl (by omega)
  rw [Char.ofNat, dif_pos hval]
  rfl

theorem isPySpace_false_of_ge {c : Char} (h : 65 ≤ c.toNat) : isPySpace c = false := by
  have hne : ∀ d : Char, d.toNat < 65 → c ≠ d := by
    intro d hd he
    rw [he] at h
    omega
  unfold isPySpace
  rw [decide_eq_false (hne ' ' (by decide)), decide_eq_false (hne '\t' (by decide)),
      decide_eq_false (hne '\n' (by decide)), decide_eq_false (hne '\r' (by decide)),
      decide_eq_false (hne '\x0b' (by decide)), decide_eq_false (hne '\x0c' (by decide))]
  rfl

theorem isPySpace_toLower (c : Char) : isPySpace (Char.toLower c) = isPySpace c := by
  by_cases hc : 65 ≤ c.toNat ∧ c.toNat ≤ 90
  · have h1 : (Char.toLower c).toNat = c.toNat + 32 := toLower_toNat_of_upper hc.1 hc.2
    rw [isPySpace_false_of_ge (c := Char.toLower c) (by omega),
        isPySpace_false_of_ge hc.1]
  · unfold Char.toLower
    rw [if_neg hc]

theorem toLower_eq_newline {c : Char} (h : Char.toLower c = '\n') : c = '\n' := by
  by_cases hc : 65 ≤ c.toNat ∧ c.toNat ≤ 90
  · have h2 := congrArg Char.toNat h
    rw [toLower_toNat_of_upper hc.1 hc.2] at h2
    have h3 : Char.toNat '\n' = 10 := by decide
    omega
  · unfold Char.toLower at h
    rwa [if_neg hc] at h

/-- For a newline-free line, `is_references_section` holds exactly when the
trimmed, case-folded text equals one of the references keywords. -/
theorem is_references_section_iff {line : Str} (hnl : '\n' ∉ line) :
    is_references_section line = true ↔
      toLowerStr (pyStrip line) ∈ REFERENCES_KEYWORDS := by
  unfold is_references_section
  rw [List.any_eq_true]
  constructor
  · rintro ⟨kw, hkw, hcond⟩
    rcases Bool.or_eq_true_iff.mp hcond with hor | hre
    · rcases Bool.or_eq_true_iff.mp hor with heq | hstarts
      · rw [decide_eq_true_eq] at heq
        rw [heq]
        exact hkw
      · exfalso
        obtain ⟨t, ht⟩ := leadsWith_iff.mp hstarts
        have hmem : '\n' ∈ toLowerStr (pyStrip line) := by
          rw [ht]
          refine List.mem_append.mpr (Or.inl ?_)
          exact List.mem_append.mpr (Or.inr (List.mem_singleton.mpr rfl))
        obtain ⟨c0, hc0, hc0l⟩ := List.mem_map.mp hmem
        have : c0 = '\n' := toLower_eq_newline hc0l
        subst this
        exact hnl (mem_pyStrip hc0)
    · rcases Bool.and_eq_true_iff.mp hre with ⟨hlead, hall⟩
      obtain ⟨t, ht⟩ := leadsWith_iff.mp hlead
      have hdrop : (toLowerStr (pyStrip line)).drop kw.length = t := by
        rw [ht, List.drop_left]
      rw [hdrop] at hall
      rcases List.eq_nil_or_concat t with rfl | ⟨t0, cσ, rfl⟩
      · rw [ht, List.append_nil]
        exact hkw
      · exfalso
        rw [List.concat_eq_append] at ht hall
        have hσ : isPySpace cσ = true := by
          have h5 := List.all_eq_true.mp hall cσ
          exact h5 (by simp)
        rcases List.eq_nil_or_concat (pyStrip line) with hnil | ⟨y, c0, hy⟩
        · rw [hnil] at ht
          exact absurd ht.symm (by simp [toLowerStr])
        · rw [List.concat_eq_append] at hy
          have hx : List.map Char.toLower y ++ [Char.toLower c0] =
              (kw ++ t0) ++ [cσ] := by
            have h6 := ht
            rw [hy] at h6
            rw [toLowerStr, List.map_append] at h6
            rw [← List.append_assoc] at h6
            simpa using h6
          have hlast := (List.append_inj' hx (by simp)).2
          have hc0 : Char.toLower c0 = cσ := by
            simpa using hlast
          have hns : isPySpace c0 = false := pyStrip_no_trailing hy
          rw [← hc0, isPySpace_toLower] at hσ
          rw [hσ] at hns
          exact absurd hns (by decide)
  · intro hmem
    refine ⟨toLowerStr (pyStrip line), hmem, ?_⟩
    rw [Bool.or_eq_true_iff]
    exact Or.inl (Bool.or_eq_true_iff.mpr (Or.inl (decide_eq_true rfl)))

/-- Fields of `bodyStep` other than `body` and `headings` are unchanged. -/
theorem bodyStep_fields (st : ExtractState) (line : Str) :
    (bodyStep st line).references = st.references ∧
    (bodyStep st line).in_references = st.in_references ∧
    (bodyStep st line).in_title_page = st.in_title_page := by
  simp only [bodyStep]
  split <;> exact ⟨rfl, rfl, rfl⟩

/-- A step on a non-references line from a non-references state stays outside
the references zone and leaves `references` unchanged. -/
theorem extractStep_no_ref (st : ExtractState) (line : Str)
    (hr : is_references_section (pyStrip line) = false)
    (h2 : st.in_references = false) :
    (extractStep st line).in_references = false ∧
    (extractStep st line).references = st.references := by
  unfold extractStep
  rw [if_neg (by rw [hr]; exact Bool.false_ne_true),
      if_neg (by rw [h2]; exact Bool.false_ne_true)]
  split_ifs
  · exact ⟨h2, rfl⟩
  · exact ⟨h2, rfl⟩
  · exact ⟨h2, rfl⟩
  · obtain ⟨f1, f2, _⟩ := bodyStep_fields { st with in_title_page := false, body_started := true } line
    exact ⟨by rw [f2]; exact h2, f1⟩
  · obtain ⟨f1, f2, _⟩ := bodyStep_fields st line
    exact ⟨by rw [f2]; exact h2, f1⟩

/-- Folding non-references lines from a non-references state stays outside
the references zone and leaves `references` unchanged. -/
theorem foldl_no_ref (lines : List Str) : ∀ st : ExtractState,
    st.in_references = false →
    (∀ l ∈ lines, is_references_section (pyStrip l) = false) →
    (lines.foldl extractStep st).in_references = false ∧
    (lines.foldl extractStep st).references = st.references := by
  induction lines with
  | nil => intro st h _; exact ⟨h, rfl⟩
  | cons l ls ih =>
    intro st h hall
    rw [List.foldl_cons]
    obtain ⟨s1, s2⟩ := extractStep_no_ref st l (hall l (List.mem_cons_self l ls)) h
    obtain ⟨i1, i2⟩ := ih _ s1 (fun x hx => hall x (List.mem_cons_of_mem l hx))
    exact ⟨i1, by rw [i2, s2]⟩

/-- A step from inside the references zone appends the line verbatim to
`references` and changes nothing else (in particular the zone is terminal). -/
theorem extractStep_in_refs (st : ExtractState) (line : Str)
    (h2 : st.in_references = true) :
    (extractStep st line).references = st.references ++ [line] ∧
    (extractStep st line).in_references = true ∧
    (extractStep st line).title_page = st.title_page ∧
    (extractStep st line).body = st.body ∧
    (extractStep st line).headings = st.headings ∧
    (extractStep st line).body_started = st.body_started := by
  unfold extractStep
  by_cases hr : is_references_section (pyStrip line) = true
  · rw [if_pos hr]
    exact ⟨rfl, rfl, rfl, rfl, rfl, rfl⟩
  · rw [if_neg hr, if_pos h2]
    exact ⟨rfl, h2, rfl, rfl, rfl, rfl⟩

/-- Folding any lines from inside the references zone appends them all to
`references` in order and changes nothing else. -/
theorem foldl_in_refs (lines : List Str) : ∀ st : ExtractState,
    st.in_references = true →
    (lines.foldl extractStep st).references = st.references ++ lines ∧
    (lines.foldl extractStep st).title_page = st.title_page ∧
    (lines.foldl extractStep st).body = st.body ∧
    (lines.foldl extractStep st).headings = st.headings := by
  induction lines with
  | nil => intro st _; simp
  | cons l ls ih =>
    intro st h
    rw [List.foldl_cons]
    obtain ⟨r1, r2, r3, r4, r5, _⟩ := extractStep_in_refs st l h
    obtain ⟨i1, i2, i3, i4⟩ := ih _ r2
    refine ⟨?_, by rw [i2, r3], by rw [i3, r4], by rw [i4, r5]⟩
    rw [i1, r1, List.append_assoc]
    rfl

/-- C3: the first line of the document whose trimmed, case-folded text equals
one of the references keywords opens the references zone: that line and every
later line, regardless of content, form `references` verbatim, and the
classifier never returns to the title page or body (their zones are exactly
what the lines before the keyword produced). -/
theorem C3_references_terminal (text : Str) (pre : List Str) (kwline : Str)
    (post : List Str)
    (hsplit : splitNl text = pre ++ kwline :: post)
    (hpre : ∀ l ∈ pre, toLowerStr (pyStrip l) ∉ REFERENCES_KEYWORDS)
    (hkw : toLowerStr (pyStrip kwline) ∈ REFERENCES_KEYWORDS) :
    (extract_document_sections text).references = kwline :: post ∧
    (extract_document_sections text).title_page =
      (pre.foldl extractStep extractInit).title_page ∧
    (extract_document_sections text).body =
      (pre.foldl extractStep extractInit).body ∧
    (extract_document_sections text).headings =
      (pre.foldl extractStep extractInit).headings := by
  have hmempre : ∀ l ∈ pre, l ∈ splitNl text := by
    intro l hl
    rw [hsplit]
    exact List.mem_append.mpr (Or.inl hl)
  have hpre2 : ∀ l ∈ pre, is_references_section (pyStrip l) = false := by
    intro l hl
    have hnl : '\n' ∉ pyStrip l := by
      intro hc
      exact splitNl_no_newline text l (hmempre l hl) (mem_pyStrip hc)
    cases hb : is_references_section (pyStrip l) with
    | false => rfl
    | true =>
      have hm := (is_references_section_iff hnl).mp hb
      rw [pyStrip_idem] at hm
      exact absurd hm (hpre l hl)
  have hkwnl : '\n' ∉ pyStrip kwline := by
    intro hc
    refine splitNl_no_newline text kwline ?_ (mem_pyStrip hc)
    rw [hsplit]
    exact List.mem_append.mpr (Or.inr (List.mem_cons_self _ _))
  have hkw2 : is_references_section (pyStrip kwline) = true := by
    refine (is_references_section_iff hkwnl).mpr ?_
    rw [pyStrip_idem]
    exact hkw
  unfold extract_document_sections
  rw [hsplit, List.foldl_append, List.foldl_cons]
  obtain ⟨hs1, hs2⟩ := foldl_no_ref pre extractInit rfl hpre2
  set st1 := pre.foldl extractStep extractInit with hst1
  have hstep : extractStep st1 kwline =
      { st1 with in_references := true, in_title_page := false,
                 references := st1.references ++ [kwline] } := by
    unfold extractStep
    rw [if_pos hkw2]
  rw [hstep]
  obtain ⟨g1, g2, g3, g4⟩ := foldl_in_refs post
    { st1 with in_references := true, in_title_page := false,
               references := st1.references ++ [kwline] } rfl
  refine ⟨?_, by rw [g2], by rw [g3], by rw [g4]⟩
  rw [g1]
  simp only [hs2]
  rfl

/-- Witness for C3: a concrete four-line document whose third line is
`"REFERENCES"`. -/
theorem C3_references_terminal_witness :
    (extract_document_sections
        (("Title\nBody line\nREFERENCES\nSmith 2020").toList)).references =
      (("REFERENCES").toList) :: [("Smith 2020").toList] ∧
    (extract_document_sections
        (("Title\nBody line\nREFERENCES\nSmith 2020").toList)).title_page =
      (([("Title").toList, ("Body line").toList]).foldl extractStep
        extractInit).title_page ∧
    (extract_document_sections
        (("Title\nBody line\nREFERENCES\nSmith 2020").toList)).body =
      (([("Title").toList, ("Body line").toList]).foldl extractStep
        extractInit).body ∧
    (extract_document_sections
        (("Title\nBody line\nREFERENCES\nSmith 2020").toList)).headings =
      (([("Title").toList, ("Body line").toList]).foldl extractStep
        extractInit).headings :=
  C3_references_terminal (("Title\nBody line\nREFERENCES\nSmith 2020").toList)
    [("Title").toList, ("Body line").toList] (("REFERENCES").toList)
    [("Smith 2020").toList] (by decide) (by decide) (by decide)

/-! ## Claims C6, C7, C8, C10: the convergence controller -/

/-- C6: when the baseline score is a genuine score (non-negative) at or below
the target, the run ends immediately with success at version 0: no rewrite
call is made and no candidate file is written. -/
theorem C6_baseline_below_target (baseline : DetectResult) (hum : ℕ → Str → Str)
    (rescan : ℕ → DetectResult) (extracted : Str) (target : ℚ) (maxIter : ℕ)
    (h0 : 0 ≤ parse_ai_percentage baseline)
    (h1 : parse_ai_percentage baseline ≤ target) :
    runMain baseline hum rescan extracted target maxIter =
      ⟨.success, 0, extracted, parse_ai_percentage baseline, [], 0⟩ := by
  unfold runMain
  rw [if_neg (not_lt.mpr h0), if_pos h1]

/-- Witness for C6: the spec's example, baseline score 10 against target 20. -/
theorem C6_baseline_below_target_witness :
    runMain ⟨true, .num 10⟩ (fun _ s => s) (fun _ => ⟨true, .num 30⟩)
        (("doc").toList) 20 10 =
      ⟨.success, 0, ("doc").toList,
       parse_ai_percentage ⟨true, .num 10⟩, [], 0⟩ :=
  C6_baseline_below_target ⟨true, .num 10⟩ (fun _ s => s)
    (fun _ => ⟨true, .num 30⟩) (("doc").toList) 20 10 (by decide) (by decide)

/-- Generalised exhaustion run of the loop: starting at any version with the
invariant text `candSeq (version - 1)`, if every remaining re-scan stays
strictly above the (non-negative) target, the loop performs the remaining
`n = maxIter + 1 - version` iterations, writes one candidate per iteration,
and exits `exhausted` at version `maxIter + 1` with the last candidate. -/
theorem convergeLoop_exhaust (target : ℚ) (maxIter : ℕ) (hum : ℕ → Str → Str)
    (rescan : ℕ → DetectResult) (extracted : Str) :
    ∀ n version curScore written calls,
      version + n = maxIter + 1 →
      1 ≤ version →
      target < curScore →
      0 ≤ target →
      (∀ k, version ≤ k → k ≤ maxIter → target < parse_ai_percentage (rescan k)) →
      convergeLoop target maxIter hum rescan version
          (candSeq hum extracted (version - 1)) curScore written calls =
        ⟨.exhausted, maxIter + 1, candSeq hum extracted maxIter,
         (if n = 0 then curScore else parse_ai_percentage (rescan maxIter)),
         written ++ (List.range n).map
           (fun j => (version + j, candSeq hum extracted (version + j))),
         calls + n⟩ := by
  intro n
  induction n with
  | zero =>
    intro version curScore written calls h1 h2 h3 h4 h5
    have hv : version = maxIter + 1 := by omega
    rw [convergeLoop, dif_neg (by rintro ⟨-, hle⟩; omega)]
    subst hv
    simp
  | succ m ih =>
    intro version curScore written calls h1 h2 h3 h4 h5
    have hvle : version ≤ maxIter := by omega
    rw [convergeLoop, dif_pos ⟨h3, hvle⟩]
    have hp : target < parse_ai_percentage (rescan version) :=
      h5 version (le_refl _) hvle
    rw [if_neg (not_lt.mpr (le_trans h4 (le_of_lt hp))), if_neg (not_le.mpr hp)]
    have hcand : hum version (candSeq hum extracted (version - 1)) =
        candSeq hum extracted version := by
      cases version with
      | zero => omega
      | succ v => simp [candSeq]
    rw [hcand]
    have hrec := ih (version + 1) (parse_ai_percentage (rescan version))
      (written ++ [(version, candSeq hum extracted version)]) (calls + 1)
      (by omega) (by omega) hp h4 (fun k hk1 hk2 => h5 k (by omega) hk2)
    rw [Nat.add_sub_cancel] at hrec
    rw [hrec]
    have hsc : (if m = 0 then parse_ai_percentage (rescan version)
        else parse_ai_percentage (rescan maxIter)) =
        (if m + 1 = 0 then curScore else parse_ai_percentage (rescan maxIter)) := by
      rcases Nat.eq_zero_or_pos m with rfl | hm
      · have : version = maxIter := by omega
        simp [this]
      · rw [if_neg (by omega), if_neg (by omega)]
    have hwr : (written ++ [(version, candSeq hum extracted version)]) ++
        (List.range m).map
          (fun j => (version + 1 + j, candSeq hum extracted (version + 1 + j))) =
        written ++ (List.range (m + 1)).map
          (fun j => (version + j, candSeq hum extracted (version + j))) := by
      rw [List.range_succ_eq_map, List.map_cons, List.map_map, List.append_assoc]
      have hfun : ((fun j => (version + j, candSeq hum extracted (version + j))) ∘
          Nat.succ) =
          (fun j => (version + 1 + j, candSeq hum extracted (version + 1 + j))) := by
        funext j
        have hj : version + Nat.succ j = version + 1 + j := by omega
        simp only [Function.comp]
        rw [hj]
      rw [hfun]
      simp
    rw [hsc, hwr, show calls + 1 + m = calls + (m + 1) from by omega]

/-- C7: with re-scan scores strictly above the (non-negative) target on every
call, the loop performs exactly `maxIter` rewrite iterations (versions 1
through `maxIter`), writes one versioned candidate per iteration, and then
terminates with `exhausted` at version `maxIter + 1`, returning the last
candidate and its score — the loop always terminates within the cap. -/
theorem C7_exhaustion (baseline : DetectResult) (hum : ℕ → Str → Str)
    (rescan : ℕ → DetectResult) (extracted : Str) (target : ℚ) (maxIter : ℕ)
    (ht : 0 ≤ target) (hb : target < parse_ai_percentage baseline)
    (hx : pyStrip extracted ≠ []) (hm : 1 ≤ maxIter)
    (hr : ∀ k, 1 ≤ k → k ≤ maxIter → target < parse_ai_percentage (rescan k)) :
    runMain baseline hum rescan extracted target maxIter =
      ⟨.exhausted, maxIter + 1, candSeq hum extracted maxIter,
       parse_ai_percentage (rescan maxIter),
       (List.range maxIter).map
         (fun j => (1 + j, candSeq hum extracted (1 + j))),
       maxIter⟩ := by
  unfold runMain
  rw [if_neg (not_lt.mpr (le_trans ht (le_of_lt hb))), if_neg (not_le.mpr hb),
      if_neg hx]
  have h := convergeLoop_exhaust target maxIter hum rescan extracted maxIter 1
    (parse_ai_percentage baseline) [] 0 (by omega) (le_refl _) hb ht hr
  rw [show candSeq hum extracted (1 - 1) = extracted from rfl] at h
  rw [h, if_neg (by omega)]
  simp

/-- Witness for C7: the spec's scenario with `maxIterations = 3`, baseline 45,
target 20, and an oracle whose score never drops below the target. -/
theorem C7_exhaustion_witness :
    runMain ⟨true, .num 45⟩ (fun _ s => 'h' :: s) (fun _ => ⟨true, .num 25⟩)
        (("doc").toList) 20 3 =
      ⟨.exhausted, 3 + 1,
       candSeq (fun _ s => 'h' :: s) (("doc").toList) 3,
       parse_ai_percentage ((fun _ : ℕ => (⟨true, .num 25⟩ : DetectResult)) 3),
       (List.range 3).map
         (fun j => (1 + j, candSeq (fun _ s => 'h' :: s) (("doc").toList) (1 + j))),
       3⟩ :=
  C7_exhaustion ⟨true, .num 45⟩ (fun _ s => 'h' :: s) (fun _ => ⟨true, .num 25⟩)
    (("doc").toList) 20 3 (by decide) (by decide) (by decide) (by decide)
    (fun k _ _ => show (20 : ℚ) < parse_ai_percentage ⟨true, .num 25⟩ from by decide)

/-- Generalised failing run of the loop: scores stay above the target until
the re-scan at version `version + n` fails to parse (is negative); the loop
stops there with `oracleFailure`, the last produced candidate as final text,
and every candidate written so far preserved. -/
theorem convergeLoop_fail (target : ℚ) (maxIter : ℕ) (hum : ℕ → Str → Str)
    (rescan : ℕ → DetectResult) (extracted : Str) :
    ∀ n version curScore written calls,
      version + n ≤ maxIter →
      1 ≤ version →
      target < curScore →
      0 ≤ target →
      (∀ k, version ≤ k → k < version + n → target < parse_ai_percentage (rescan k)) →
      parse_ai_percentage (rescan (version + n)) < 0 →
      convergeLoop target maxIter hum rescan version
          (candSeq hum extracted (version - 1)) curScore written calls =
        ⟨.oracleFailure, version + n, candSeq hum extracted (version + n),
         parse_ai_percentage (rescan (version + n)),
         written ++ (List.range (n + 1)).map
           (fun j => (version + j, candSeq hum extracted (version + j))),
         calls + (n + 1)⟩ := by
  intro n
  induction n with
  | zero =>
    intro version curScore written calls h1 h2 h3 h4 h5 h6
    rw [convergeLoop, dif_pos ⟨h3, by omega⟩]
    rw [Nat.add_zero] at h6
    rw [if_pos h6]
    have hcand : hum version (candSeq hum extracted (version - 1)) =
        candSeq hum extracted version := by
      cases version with
      | zero => omega
      | succ v => simp [candSeq]
    rw [hcand]
    have hr1 : List.range 1 = [0] := rfl
    simp [hr1]
  | succ m ih =>
    intro version curScore written calls h1 h2 h3 h4 h5 h6
    rw [convergeLoop, dif_pos ⟨h3, by omega⟩]
    have hp : target < parse_ai_percentage (rescan version) :=
      h5 version (le_refl _) (by omega)
    rw [if_neg (not_lt.mpr (le_trans h4 (le_of_lt hp))), if_neg (not_le.mpr hp)]
    have hcand : hum version (candSeq hum extracted (version - 1)) =
        candSeq hum extracted version := by
      cases version with
      | zero => omega
      | succ v => simp [candSeq]
    rw [hcand]
    have hrec := ih (version + 1) (parse_ai_percentage (rescan version))
      (written ++ [(version, candSeq hum extracted version)]) (calls + 1)
      (by omega) (by omega) hp h4
      (fun k hk1 hk2 => h5 k (by omega) (by omega))
      (by rw [show version + 1 + m = version + (m + 1) from by omega]; exact h6)
    rw [Nat.add_sub_cancel] at hrec
    rw [hrec]
    have hidx : version + 1 + m = version + (m + 1) := by omega
    rw [hidx]
    have hwr : (written ++ [(version, candSeq hum extracted version)]) ++
        (List.range (m + 1)).map
          (fun j => (version + 1 + j, candSeq hum extracted (version + 1 + j))) =
        written ++ (List.range (m + 1 + 1)).map
          (fun j => (version + j, candSeq hum extracted (version + j))) := by
      rw [List.range_succ_eq_map (m + 1), List.map_cons, List.map_map,
        List.append_assoc]
      have hfun : ((fun j => (version + j, candSeq hum extracted (version + j))) ∘
          Nat.succ) =
          (fun j => (version + 1 + j, candSeq hum extracted (version + 1 + j))) := by
        funext j
        have hj : version + Nat.succ j = version + 1 + j := by omega
        simp only [Function.comp]
        rw [hj]
      rw [hfun]
      simp
    rw [hwr, show calls + 1 + (m + 1) = calls + (m + 1 + 1) from by omega]

/-- C8: a detection-oracle failure ends the run without retrying.  First
conjunct: a failed baseline scan (negative parsed score) terminates with
`oracleFailure` before any rewrite call and before any candidate is written.
Second conjunct: a failed re-scan at version `f` stops the loop with
`oracleFailure`; the final text is the candidate produced at version `f`, and
the written list still contains every candidate of versions 1 through `f` —
nothing already written is lost. -/
theorem C8_oracle_failure_stops_preserving :
    (∀ (baseline : DetectResult) (hum : ℕ → Str → Str)
        (rescan : ℕ → DetectResult) (extracted : Str) (target : ℚ)
        (maxIter : ℕ),
      parse_ai_percentage baseline < 0 →
      runMain baseline hum rescan extracted target maxIter =
        ⟨.oracleFailure, 0, extracted, parse_ai_percentage baseline, [], 0⟩) ∧
    (∀ (baseline : DetectResult) (hum : ℕ → Str → Str)
        (rescan : ℕ → DetectResult) (extracted : Str) (target : ℚ)
        (maxIter f : ℕ),
      0 ≤ target → target < parse_ai_percentage baseline →
      pyStrip extracted ≠ [] → 1 ≤ f → f ≤ maxIter →
      (∀ k, 1 ≤ k → k < f → target < parse_ai_percentage (rescan k)) →
      parse_ai_percentage (rescan f) < 0 →
      runMain baseline hum rescan extracted target maxIter =
        ⟨.oracleFailure, f, candSeq hum extracted f,
         parse_ai_percentage (rescan f),
         (List.range f).map (fun j => (1 + j, candSeq hum extracted (1 + j))),
         f⟩) := by
  constructor
  · intro baseline hum rescan extracted target maxIter h
    unfold runMain
    rw [if_pos h]
  · intro baseline hum rescan extracted target maxIter f ht hb hx hf1 hf2 hr hfail
    unfold runMain
    rw [if_neg (not_lt.mpr (le_trans ht (le_of_lt hb))), if_neg (not_le.mpr hb),
        if_neg hx]
    have hn : 1 + (f - 1) = f := by omega
    have h := convergeLoop_fail target maxIter hum rescan extracted (f - 1) 1
      (parse_ai_percentage baseline) [] 0 (by omega) (le_refl _) hb ht
      (fun k hk1 hk2 => hr k hk1 (by omega)) (by rw [hn]; exact hfail)
    rw [show candSeq hum extracted (1 - 1) = extracted from rfl, hn] at h
    rw [h]
    have hfr : f - 1 + 1 = f := by omega
    rw [hfr]
    simp

/-- Witness for C8: both conjuncts at concrete runs — a baseline failure
(`success=false`), and a re-scan failure at version 2 of a 5-iteration run. -/
theorem C8_oracle_failure_stops_preserving_witness :
    (runMain ⟨false, .absent⟩ (fun _ s => s) (fun _ => ⟨true, .num 30⟩)
        (("doc").toList) 20 10 =
      ⟨.oracleFailure, 0, ("doc").toList,
       parse_ai_percentage ⟨false, .absent⟩, [], 0⟩) ∧
    (runMain ⟨true, .num 45⟩ (fun _ s => 'h' :: s)
        (fun k => if k = 2 then ⟨false, .absent⟩ else ⟨true, .num 30⟩)
        (("doc").toList) 20 5 =
      ⟨.oracleFailure, 2, candSeq (fun _ s => 'h' :: s) (("doc").toList) 2,
       parse_ai_percentage
         ((fun k : ℕ => if k = 2 then (⟨false, .absent⟩ : DetectResult)
            else ⟨true, .num 30⟩) 2),
       (List.range 2).map
         (fun j => (1 + j, candSeq (fun _ s => 'h' :: s) (("doc").toList) (1 + j))),
       2⟩) :=
  ⟨C8_oracle_failure_stops_preserving.1 ⟨false, .absent⟩ (fun _ s => s)
      (fun _ => ⟨true, .num 30⟩) (("doc").toList) 20 10 (by decide),
   C8_oracle_failure_stops_preserving.2 ⟨true, .num 45⟩ (fun _ s => 'h' :: s)
      (fun k => if k = 2 then ⟨false, .absent⟩ else ⟨true, .num 30⟩)
      (("doc").toList) 20 5 2 (by decide) (by decide) (by decide) (by decide)
      (by decide)
      (fun k hk1 hk2 => by
        interval_cases k
        · decide)
      (by decide)⟩

/-- C10: a successful response whose `fakePercentage` is an unparsable string
is parsed as the score 0 (not the failure sentinel −1), so the controller
treats it as a genuine score and, for any non-negative target, ends the run
as a version-0 success instead of reporting an oracle failure. -/
theorem C10_malformed_percentage (s : Str) (hum : ℕ → Str → Str)
    (rescan : ℕ → DetectResult) (extracted : Str) (target : ℚ) (maxIter : ℕ)
    (hbad : pyFloatOpt (stripPct s) = none) (ht : 0 ≤ target) :
    parse_ai_percentage ⟨true, .strv s⟩ = 0 ∧
    parse_ai_percentage ⟨true, .strv s⟩ ≠ -1 ∧
    runMain ⟨true, .strv s⟩ hum rescan extracted target maxIter =
      ⟨.success, 0, extracted, 0, [], 0⟩ := by
  have h0 : parse_ai_percentage ⟨true, .strv s⟩ = 0 := by
    unfold parse_ai_percentage
    simp only [Bool.not_true, Bool.false_eq_true, if_false, hbad]
  refine ⟨h0, by rw [h0]; norm_num, ?_⟩
  unfold runMain
  rw [h0, if_neg (by norm_num), if_pos ht]

/-- Witness for C10: the concrete unparsable string `"N/A"` with target 20. -/
theorem C10_malformed_percentage_witness :
    parse_ai_percentage ⟨true, .strv (("N/A").toList)⟩ = 0 ∧
    parse_ai_percentage ⟨true, .strv (("N/A").toList)⟩ ≠ -1 ∧
    runMain ⟨true, .strv (("N/A").toList)⟩ (fun _ s => s)
        (fun _ => ⟨true, .num 30⟩) (("doc").toList) 20 10 =
      ⟨.success, 0, ("doc").toList, 0, [], 0⟩ :=
  C10_malformed_percentage (("N/A").toList) (fun _ s => s)
    (fun _ => ⟨true, .num 30⟩) (("doc").toList) 20 10 (by decide) (by decide)

/-! ## Claim C9: one rewrite cycle touches only the body -/

/-- C9: `humanise_text` modifies only the body zone — the reassembled output
is `reconstruct_document` of the input's own section map with only the `body`
field replaced — and the heading-preservation list passed to the rewrite
oracle is the prefix of at most the first 20 headings in document order. -/
theorem C9_frame_only_body (oracle : Str → List Str → Str) (text : Str) :
    (∃ newBody : List Str,
        humanise_text oracle text =
          reconstruct_document
            { extract_document_sections text with body := newBody }) ∧
    headingsSent text =
      (((extract_document_sections text).headings).map Prod.snd).take 20 ∧
    (headingsSent text).length ≤ 20 ∧
    (∃ rest, headingsSent text ++ rest =
        ((extract_document_sections text).headings).map Prod.snd) := by
  refine ⟨⟨_, rfl⟩, rfl, ?_, ?_⟩
  · exact List.length_take_le 20 _
  · exact ⟨_, List.take_append_drop 20 _⟩

/-! ## Claim C2: the citation codec round trip

### Engine metatheory

Soundness and completeness of the backtracking matcher with respect to the
declarative relation `RMatch`, plus closure properties of matched strings. -/

theorem orElse_none_iff {α : Type} (a b : Option α) :
    (a.orElse fun _ => b) = none ↔ a = none ∧ b = none := by
  cases a <;> simp [Option.orElse]

theorem orElse_ne_none_right {α : Type} (a b : Option α) (h : b ≠ none) :
    (a.orElse fun _ => b) ≠ none := by
  cases a <;> simp [Option.orElse, h]

theorem orElse_ne_none_left {α : Type} (a b : Option α) (h : a ≠ none) :
    (a.orElse fun _ => b) ≠ none := by
  cases a with
  | none => exact absurd rfl h
  | some x => simp [Option.orElse]

theorem reSize_pos (r : RE) : 1 ≤ reSize r := by
  cases r <;> (simp only [reSize]; omega)

/-- Soundness of the matcher: a successful run consumed a prefix in the
language of the pattern and handed the rest to the continuation. -/
theorem matchCPS_sound :
    ∀ (f : ℕ) (r : RE) (s : Str) (k : Str → Option Str) (x : Str),
      matchCPS f r s k = some x →
      ∃ u v, s = u ++ v ∧ RMatch r u ∧ k v = some x := by
  intro f
  induction f with
  | zero => intro r s k x h; exact absurd h (by simp [matchCPS])
  | succ g ih =>
    intro r s k x h
    cases r with
    | eps => exact ⟨[], s, rfl, RMatch.eps, h⟩
    | cls p =>
      cases s with
      | nil => exact absurd h (by simp [matchCPS])
      | cons c cs =>
        simp only [matchCPS] at h
        split at h
        · exact ⟨[c], cs, rfl, RMatch.cls (by assumption), h⟩
        · exact absurd h (by simp)
    | seq a b =>
      simp only [matchCPS] at h
      obtain ⟨u1, v1, hs, hm1, hk1⟩ := ih a s _ x h
      obtain ⟨u2, v2, hs2, hm2, hk2⟩ := ih b v1 k x hk1
      exact ⟨u1 ++ u2, v2, by rw [hs, hs2, List.append_assoc],
        RMatch.seq hm1 hm2, hk2⟩
    | alt a b =>
      simp only [matchCPS] at h
      rcases ha : matchCPS g a s k with _ | y
      · rw [ha] at h
        simp only [Option.orElse] at h
        obtain ⟨u, v, hs, hm, hk⟩ := ih b s k x h
        exact ⟨u, v, hs, RMatch.altR hm, hk⟩
      · rw [ha] at h
        simp only [Option.orElse] at h
        obtain ⟨u, v, hs, hm, hk⟩ := ih a s k x (by rw [ha, ← h])
        exact ⟨u, v, hs, RMatch.altL hm, hk⟩
    | star a =>
      simp only [matchCPS] at h
      rcases ha : matchCPS g a s
          (fun s2 => if s2.length < s.length then matchCPS g (.star a) s2 k
            else none) with _ | y
      · rw [ha] at h
        simp only [Option.orElse] at h
        exact ⟨[], s, rfl, RMatch.starNil, h⟩
      · rw [ha] at h
        simp only [Option.orElse] at h
        obtain ⟨u1, v1, hs, hm1, hk1⟩ := ih a s _ x (by rw [ha, ← h])
        by_cases hlt : v1.length < s.length
        · rw [if_pos hlt] at hk1
          obtain ⟨u2, v2, hs2, hm2, hk2⟩ := ih (.star a) v1 k x hk1
          exact ⟨u1 ++ u2, v2, by rw [hs, hs2, List.append_assoc],
            RMatch.starCons hm1 hm2, hk2⟩
        · rw [if_neg hlt] at hk1
          exact absurd hk1 (by simp)

/-- Star decomposition: a nonempty star match peels at least one nonempty
repetition. -/
theorem starDecomp {a : RE} {u : Str} (h : RMatch (.star a) u) :
    u = [] ∨ ∃ u1 u2, u1 ≠ [] ∧ u = u1 ++ u2 ∧ RMatch a u1 ∧
      RMatch (.star a) u2 := by
  generalize hr : RE.star a = r at h
  induction h with
  | eps => exact absurd hr (by simp)
  | cls _ => exact absurd hr (by simp)
  | seq _ _ _ _ => exact absurd hr (by simp)
  | altL _ _ => exact absurd hr (by simp)
  | altR _ _ => exact absurd hr (by simp)
  | starNil => exact Or.inl rfl
  | starCons h1 h2 ih1 ih2 =>
    rename_i a' u1 u2
    injection hr with ha
    subst ha
    rcases List.eq_nil_or_concat u1 with rfl | ⟨_, _, hne⟩
    · rcases ih2 rfl with h | ⟨w1, w2, hw1, hw2, hw3, hw4⟩
      · exact Or.inl (by rw [h]; rfl)
      · exact Or.inr ⟨w1, w2, hw1, by rw [hw2]; rfl, hw3, hw4⟩
    · refine Or.inr ⟨u1, u2, ?_, rfl, h1, h2⟩
      rw [hne]
      simp

/-- Monotonicity: more fuel and a pointwise-stronger continuation preserve
non-failure. -/
theorem matchCPS_mono :
    ∀ (f1 : ℕ) (f2 : ℕ) (r : RE) (s : Str) (k1 k2 : Str → Option Str),
      f1 ≤ f2 → (∀ v, k1 v ≠ none → k2 v ≠ none) →
      matchCPS f1 r s k1 ≠ none → matchCPS f2 r s k2 ≠ none := by
  intro f1
  induction f1 with
  | zero =>
    intro f2 r s k1 k2 _ _ h
    exact absurd (show matchCPS 0 r s k1 = none from rfl) h
  | succ g ih =>
    intro f2 r s k1 k2 hle hk h
    cases f2 with
    | zero => omega
    | succ g2 =>
      have hg : g ≤ g2 := by omega
      cases r with
      | eps => exact hk s h
      | cls p =>
        cases s with
        | nil => exact absurd (show matchCPS (g + 1) (.cls p) [] k1 = none from rfl) h
        | cons c cs =>
          simp only [matchCPS] at h ⊢
          split at h
          · rw [if_pos (by assumption)]
            exact hk cs h
          · exact absurd rfl h
      | seq a b =>
        simp only [matchCPS] at h ⊢
        exact ih g2 a s _ _ hg (fun v hv => ih g2 b v k1 k2 hg hk hv) h
      | alt a b =>
        simp only [matchCPS] at h ⊢
        rw [Ne, orElse_none_iff] at h ⊢
        intro hcon
        rcases hcon with ⟨hA, hB⟩
        by_cases hA1 : matchCPS g a s k1 = none
        · have hB1 : matchCPS g b s k1 ≠ none := fun hb => h ⟨hA1, hb⟩
          exact ih g2 b s k1 k2 hg hk hB1 hB
        · exact ih g2 a s k1 k2 hg hk hA1 hA
      | star a =>
        simp only [matchCPS] at h ⊢
        rw [Ne, orElse_none_iff] at h ⊢
        intro hcon
        rcases hcon with ⟨hA, hB⟩
        by_cases hA1 : matchCPS g a s
            (fun s2 => if s2.length < s.length then matchCPS g (.star a) s2 k1
              else none) = none
        · have hB1 : k1 s ≠ none := fun hb => h ⟨hA1, hb⟩
          exact hk s hB1 hB
        · refine ih g2 a s _ _ hg ?_ hA1 hA
          intro v hv
          by_cases hlt : v.length < s.length
          · rw [if_pos hlt] at hv ⊢
            exact ih g2 (.star a) v k1 k2 hg hk hv
          · rw [if_neg hlt] at hv
            exact absurd rfl hv

/-- Completeness: a declarative prefix match whose continuation succeeds is
found by the matcher whenever the fuel is at least
`(|u| + 1) * (reSize r + 1)`. -/
theorem matchCPS_complete :
    ∀ (N : ℕ) (r : RE) (u : Str), u.length + reSize r ≤ N →
      RMatch r u →
      ∀ (v : Str) (k : Str → Option Str) (f : ℕ),
        k v ≠ none → (u.length + 1) * (reSize r + 1) ≤ f →
        matchCPS f r (u ++ v) k ≠ none := by
  intro N
  induction N with
  | zero =>
    intro r u hle
    have := reSize_pos r
    omega
  | succ N ih =>
    intro r u hle hm v k f hk hf
    have hrs := reSize_pos r
    cases f with
    | zero =>
      have h1 : 1 ≤ (u.length + 1) * (reSize r + 1) :=
        Nat.one_le_iff_ne_zero.mpr (Nat.mul_ne_zero (by omega) (by omega))
      omega
    | succ g =>
      cases r with
      | eps =>
        cases hm
        exact hk
      | cls p =>
        cases hm with
        | cls hp =>
          show matchCPS (g + 1) (.cls p) (_ :: v) k ≠ none
          simp only [matchCPS]
          rw [if_pos hp]
          exact hk
      | seq a b =>
        cases hm with
        | seq hma hmb =>
          rename_i u1 u2
          have hsa := reSize_pos a
          have hsb := reSize_pos b
          rw [List.length_append] at hle
          simp only [reSize] at hle
          rw [List.length_append] at hf
          simp only [reSize] at hf
          simp only [matchCPS]
          rw [List.append_assoc]
          refine ih a u1 (by omega) hma (u2 ++ v) _ g ?_ ?_
          · refine ih b u2 (by omega) hmb v k g hk ?_
            have hkey : (u2.length + 1) * (reSize b + 1) + 2 ≤
                (u1.length + u2.length + 1) * (reSize a + reSize b + 1 + 1) := by
              nlinarith
            omega
          · have hkey : (u1.length + 1) * (reSize a + 1) + 2 ≤
                (u1.length + u2.length + 1) * (reSize a + reSize b + 1 + 1) := by
              nlinarith
            omega
      | alt a b =>
        have hsa := reSize_pos a
        have hsb := reSize_pos b
        simp only [reSize] at hle hf
        cases hm with
        | altL hma =>
          simp only [matchCPS]
          refine orElse_ne_none_left _ _ ?_
          refine ih a u (by omega) hma v k g hk ?_
          have hkey : (u.length + 1) * (reSize a + 1) + 2 ≤
              (u.length + 1) * (reSize a + reSize b + 1 + 1) := by
            nlinarith
          omega
        | altR hmb =>
          simp only [matchCPS]
          refine orElse_ne_none_right _ _ ?_
          refine ih b u (by omega) hmb v k g hk ?_
          have hkey : (u.length + 1) * (reSize b + 1) + 2 ≤
              (u.length + 1) * (reSize a + reSize b + 1 + 1) := by
            nlinarith
          omega
      | star a =>
        have hsa := reSize_pos a
        simp only [reSize] at hle hf
        rcases starDecomp hm with rfl | ⟨u1, u2, hne, rfl, hm1, hm2⟩
        · simp only [matchCPS]
          exact orElse_ne_none_right _ _ hk
        · have hlu1 : 1 ≤ u1.length := by
            cases u1 with
            | nil => exact absurd rfl hne
            | cons c cs => simp
          rw [List.length_append] at hle hf
          simp only [matchCPS]
          refine orElse_ne_none_left _ _ ?_
          rw [List.append_assoc]
          refine ih a u1 (by omega) hm1 (u2 ++ v) _ g ?_ ?_
          · have hguard : (u2 ++ v).length < ((u1 ++ u2) ++ v).length := by
              simp only [List.length_append]
              omega
            rw [← List.append_assoc]
            rw [if_pos hguard]
            refine ih (.star a) u2 (by simp only [reSize]; omega) hm2 v k g hk ?_
            simp only [reSize]
            have hkey : (u2.length + 1) * (reSize a + 1 + 1) + (reSize a + 2) ≤
                (u1.length + u2.length + 1) * (reSize a + 1 + 1) := by
              nlinarith
            omega
          · have hkey : (u1.length + 1) * (reSize a + 1) + 1 ≤
                (u1.length + u2.length + 1) * (reSize a + 1 + 1) := by
              nlinarith
            omega

/-- A declarative prefix match (by a nonempty string). -/
def PrefMatch (r : RE) (s : Str) : Prop :=
  ∃ u w, s = u ++ w ∧ RMatch r u ∧ u ≠ []

theorem tryMatch_sound {r : RE} {s m rest : Str}
    (h : tryMatch r s = some (m, rest)) : s = m ++ rest ∧ RMatch r m := by
  unfold tryMatch at h
  rcases hc : matchCPS (matchFuel r s) r s some with _ | x
  · rw [hc] at h
    exact absurd h (by simp)
  · rw [hc] at h
    simp only [Option.some.injEq, Prod.mk.injEq] at h
    obtain ⟨u, v, hs, hm, hk⟩ := matchCPS_sound _ _ _ _ _ hc
    have hvx : v = x := by simpa using hk
    have hrest : rest = v := by rw [← h.2, hvx]
    have hlen : s.length - v.length = u.length := by
      rw [hs, List.length_append]
      omega
    have hm2 : m = u := by
      rw [← h.1, ← hvx, hlen, hs, List.take_left]
    rw [hm2, hrest]
    exact ⟨hs, hm⟩

/-- If some nonempty prefix of `s` matches `r`, `tryMatch` succeeds.  (The
nonemptiness is not even needed, but this is the form used later.) -/
theorem tryMatch_of_prefMatch {r : RE} {s : Str} (h : PrefMatch r s) :
    tryMatch r s ≠ none := by
  obtain ⟨u, w, rfl, hm, _⟩ := h
  unfold tryMatch
  rcases hc : matchCPS (matchFuel r (u ++ w)) r (u ++ w) some with _ | x
  · exfalso
    refine matchCPS_complete (u.length + reSize r) r u (le_refl _) hm w some
      (matchFuel r (u ++ w)) (by simp) ?_ hc
    unfold matchFuel
    have h1 : u.length + 1 ≤ (u ++ w).length + 1 := by
      rw [List.length_append]
      omega
    exact Nat.mul_le_mul_right _ h1
  · simp

/-- Contrapositive interface: a failed `tryMatch` means no nonempty prefix of
`s` matches `r`. -/
theorem no_prefMatch_of_tryMatch_none {r : RE} {s : Str}
    (h : tryMatch r s = none) : ¬ PrefMatch r s :=
  fun hp => tryMatch_of_prefMatch hp h

/-- All character classes of `r` imply `P`. -/
def ClsPred (P : Char → Prop) : RE → Prop
  | .eps => True
  | .cls p => ∀ c, p c = true → P c
  | .seq a b => ClsPred P a ∧ ClsPred P b
  | .alt a b => ClsPred P a ∧ ClsPred P b
  | .star a => ClsPred P a

/-- Characters of a matched string satisfy any predicate covering the
pattern's character classes. -/
theorem RMatch_chars {P : Char → Prop} :
    ∀ {r : RE} {u : Str}, RMatch r u → ClsPred P r → ∀ c ∈ u, P c := by
  intro r u hm
  induction hm with
  | eps => intro _ c hc; simp at hc
  | cls hp =>
    intro hcp c hc
    rw [List.mem_singleton] at hc
    subst hc
    exact hcp _ hp
  | seq hma hmb iha ihb =>
    intro hcp c hc
    rcases List.mem_append.mp hc with h | h
    · exact iha hcp.1 c h
    · exact ihb hcp.2 c h
  | altL hma iha => intro hcp c hc; exact iha hcp.1 c hc
  | altR hmb ihb => intro hcp c hc; exact ihb hcp.2 c hc
  | starNil => intro _ c hc; simp at hc
  | starCons hma hms iha ihs =>
    intro hcp c hc
    rcases List.mem_append.mp hc with h | h
    · exact iha hcp c h
    · exact ihs hcp c h

/-! ### String infrastructure for the citation round trip -/

theorem leadsWith_append_self (p t : Str) : leadsWith p (p ++ t) = true :=
  leadsWith_iff.mpr ⟨t, rfl⟩

theorem leadsWith_nil_pat (s : Str) : leadsWith [] s = true := by
  cases s <;> rfl

theorem leadsWith_nil_of_ne {b : Str} (hb : b ≠ []) : leadsWith b [] = false := by
  cases b with
  | nil => exact absurd rfl hb
  | cons c cs => rfl

/-- Splitting a successful prefix test over a concatenated target. -/
theorem leadsWith_split {b P S : Str} (h : leadsWith b (P ++ S) = true) :
    leadsWith b P = true ∨ ∃ b', b = P ++ b' ∧ b' ≠ [] ∧ leadsWith b' S = true := by
  induction P generalizing b with
  | nil =>
    cases b with
    | nil => exact Or.inl rfl
    | cons c cs => exact Or.inr ⟨c :: cs, rfl, by simp, h⟩
  | cons d P' ih =>
    cases b with
    | nil => exact Or.inl (leadsWith_nil_pat _)
    | cons c cs =>
      simp only [List.cons_append, leadsWith, Bool.and_eq_true, decide_eq_true_eq] at h ⊢
      rcases ih h.2 with h2 | ⟨b', hb1, hb2, hb3⟩
      · exact Or.inl ⟨h.1, h2⟩
      · exact Or.inr ⟨b', by rw [hb1, h.1], hb2, hb3⟩

theorem containsStr_iff {s x : Str} :
    containsStr s x = true ↔ ∃ A B, s = A ++ x ++ B := by
  unfold containsStr
  rw [List.any_eq_true]
  constructor
  · rintro ⟨t, ht, hl⟩
    rw [List.mem_tails] at ht
    obtain ⟨A, hA⟩ := ht
    obtain ⟨B, hB⟩ := leadsWith_iff.mp hl
    exact ⟨A, B, by rw [← hA, hB, List.append_assoc]⟩
  · rintro ⟨A, B, rfl⟩
    refine ⟨x ++ B, ?_, leadsWith_append_self _ _⟩
    rw [List.mem_tails]
    exact ⟨A, by rw [List.append_assoc]⟩

theorem containsStr_of_leadsWith {s x : Str} (h : leadsWith x s = true) :
    containsStr s x = true := by
  obtain ⟨t, rfl⟩ := leadsWith_iff.mp h
  exact containsStr_iff.mpr ⟨[], t, rfl⟩

theorem containsStr_mono_right {B x : Str} (A : Str) (h : containsStr B x = true) :
    containsStr (A ++ B) x = true := by
  obtain ⟨C, D, rfl⟩ := containsStr_iff.mp h
  exact containsStr_iff.mpr ⟨A ++ C, D, by simp [List.append_assoc]⟩

theorem containsStr_mono_left {A x : Str} (B : Str) (h : containsStr A x = true) :
    containsStr (A ++ B) x = true := by
  obtain ⟨C, D, rfl⟩ := containsStr_iff.mp h
  exact containsStr_iff.mpr ⟨C, D ++ B, by simp [List.append_assoc]⟩

theorem containsStr_cons {c : Char} {s x : Str} (h : containsStr s x = true) :
    containsStr (c :: s) x = true :=
  containsStr_mono_right [c] h

/-! ### `str.replace(old, new, 1)` and `str.replace(old, new)` -/

theorem replaceFirst_no_occ {s pat : Str} (repl : Str)
    (h : containsStr s pat = false) : replaceFirst s pat repl = s := by
  cases pat with
  | nil =>
    exact absurd (containsStr_of_leadsWith (leadsWith_nil_pat s)) (by simp [h])
  | cons p ps =>
    induction s with
    | nil => rfl
    | cons c cs ih =>
      have h1 : leadsWith (p :: ps) (c :: cs) = false := by
        cases hl : leadsWith (p :: ps) (c :: cs) with
        | false => rfl
        | true => exact absurd (containsStr_of_leadsWith hl) (by simp [h])
      have h2 : containsStr cs (p :: ps) = false := by
        cases hc : containsStr cs (p :: ps) with
        | false => rfl
        | true => exact absurd (containsStr_cons (c := c) hc) (by simp [h])
      simp only [replaceFirst, h1, Bool.false_eq_true, if_false]
      rw [ih h2]

/-- `replaceFirst` replaces one occurrence in place: when `pat` occurs, the
string splits as `A ++ pat ++ B` and the result is `A ++ repl ++ B`. -/
theorem replaceFirst_splice {s pat : Str} (repl : Str) (hne : pat ≠ [])
    (h : containsStr s pat = true) :
    ∃ A B, s = A ++ pat ++ B ∧ replaceFirst s pat repl = A ++ repl ++ B := by
  cases pat with
  | nil => exact absurd rfl hne
  | cons p ps =>
    induction s with
    | nil =>
      exfalso
      obtain ⟨A, B, hAB⟩ := containsStr_iff.mp h
      exact absurd hAB (by simp)
    | cons c cs ih =>
      by_cases hl : leadsWith (p :: ps) (c :: cs) = true
      · obtain ⟨t, ht⟩ := leadsWith_iff.mp hl
        refine ⟨[], t, by simpa using ht, ?_⟩
        simp only [replaceFirst, hl, if_true]
        rw [List.nil_append, ht]
        simp
      · have h2 : containsStr cs (p :: ps) = true := by
          obtain ⟨A, B, hAB⟩ := containsStr_iff.mp h
          cases A with
          | nil =>
            exfalso
            rw [List.nil_append] at hAB
            exact hl (by rw [hAB]; exact leadsWith_append_self _ _)
          | cons a A' =>
            rw [List.cons_append, List.cons_append] at hAB
            injection hAB with h3 h4
            exact containsStr_iff.mpr ⟨A', B, h4⟩
        obtain ⟨A, B, hs, hr⟩ := ih h2
        refine ⟨c :: A, B, by rw [hs]; simp, ?_⟩
        simp only [replaceFirst, hl]
        rw [if_neg (by simp [hl]), hr]
        simp

theorem replaceAllGo_fuel :
    ∀ (N : ℕ) (s : Str), s.length ≤ N → ∀ (f g : ℕ), s.length < f → s.length < g →
    ∀ (pat repl : Str), replaceAllGo f s pat repl = replaceAllGo g s pat repl := by
  intro N
  induction N with
  | zero =>
    intro s hs f g hf hg pat repl
    have : s = [] := List.length_eq_zero.mp (Nat.le_zero.mp hs)
    subst this
    cases f with
    | zero => omega
    | succ f' =>
      cases g with
      | zero => omega
      | succ g' => cases pat <;> rfl
  | succ N ih =>
    intro s hs f g hf hg pat repl
    cases f with
    | zero => omega
    | succ f' =>
      cases g with
      | zero => omega
      | succ g' =>
        cases pat with
        | nil => cases s <;> rfl
        | cons p ps =>
          cases s with
          | nil => rfl
          | cons c cs =>
            simp only [replaceAllGo, List.length_cons, List.drop_succ_cons]
            simp only [List.length_cons] at hs hf hg
            by_cases hl : leadsWith (p :: ps) (c :: cs) = true
            · rw [if_pos hl, if_pos hl]
              have hd : (cs.drop ps.length).length ≤ N := by
                have := List.length_drop ps.length cs
                omega
              rw [ih _ hd f' g' (by have := List.length_drop ps.length cs; omega)
                (by have := List.length_drop ps.length cs; omega)]
            · rw [if_neg hl, if_neg hl]
              rw [ih cs (by omega) f' g' (by omega) (by omega)]

theorem replaceAllGo_eq_replaceAll {f : ℕ} {s : Str} (pat repl : Str)
    (hf : s.length < f) : replaceAllGo f s pat repl = replaceAll s pat repl :=
  replaceAllGo_fuel s.length s (le_refl _) f (s.length + 1) hf (by omega) pat repl

theorem replaceAll_no_occ {s pat : Str} (repl : Str)
    (h : containsStr s pat = false) : replaceAll s pat repl = s := by
  cases pat with
  | nil =>
    exact absurd (containsStr_of_leadsWith (leadsWith_nil_pat s)) (by simp [h])
  | cons p ps =>
    unfold replaceAll
    generalize hf : s.length + 1 = f
    have hlt : s.length < f := by omega
    clear hf
    induction f generalizing s with
    | zero => rfl
    | succ f' ih =>
      cases s with
      | nil => rfl
      | cons c cs =>
        have h1 : leadsWith (p :: ps) (c :: cs) = false := by
          cases hl : leadsWith (p :: ps) (c :: cs) with
          | false => rfl
          | true => exact absurd (containsStr_of_leadsWith hl) (by simp [h])
        have h2 : containsStr cs (p :: ps) = false := by
          cases hc : containsStr cs (p :: ps) with
          | false => rfl
          | true => exact absurd (containsStr_cons (c := c) hc) (by simp [h])
        simp only [replaceAllGo, h1, Bool.false_eq_true, if_false]
        rw [ih h2 (by simp at hlt ⊢; omega)]

/-- No suffix of `X` (paired with continuation `Y`) begins a `pat` match. -/
def NoHit (pat : Str) : Str → Str → Prop
  | [], _ => True
  | c :: cs, Y => leadsWith pat ((c :: cs) ++ Y) = false ∧ NoHit pat cs Y

theorem replaceAll_skip {pat : Str} (repl : Str) :
    ∀ (X Y : Str), NoHit pat X Y →
    replaceAll (X ++ Y) pat repl = X ++ replaceAll Y pat repl := by
  intro X
  induction X with
  | nil => intro Y _; rfl
  | cons c cs ih =>
    intro Y hnh
    obtain ⟨h1, h2⟩ := hnh
    cases pat with
    | nil => simp [leadsWith] at h1
    | cons p ps =>
      show replaceAllGo ((c :: cs ++ Y).length + 1) (c :: (cs ++ Y)) (p :: ps) repl = _
      simp only [replaceAllGo]
      rw [if_neg (by simp only [List.cons_append] at h1; simp [h1])]
      rw [replaceAllGo_eq_replaceAll (p :: ps) repl (by simp)]
      rw [ih Y h2]
      simp

theorem replaceAll_hit {pat : Str} (repl Y : Str) (hne : pat ≠ []) :
    replaceAll (pat ++ Y) pat repl = repl ++ replaceAll Y pat repl := by
  cases pat with
  | nil => exact absurd rfl hne
  | cons p ps =>
    show replaceAllGo ((p :: ps ++ Y).length + 1) (p :: (ps ++ Y)) (p :: ps) repl = _
    simp only [replaceAllGo]
    rw [if_pos (by exact leadsWith_append_self (p :: ps) Y)]
    have hdrop : (p :: (ps ++ Y)).drop (p :: ps).length = Y := by
      rw [List.length_cons, List.drop_succ_cons]
      exact List.drop_left ps Y
    simp only [List.length_cons] at hdrop ⊢
    rw [hdrop]
    rw [replaceAllGo_eq_replaceAll (p :: ps) repl (by simp; omega)]

theorem noHit_of_no_underscore {j : ℕ} {w : Str} (Y : Str)
    (hw : ∀ ch ∈ w, ch ≠ '_') : NoHit (placeholderStr j) w Y := by
  induction w with
  | nil => trivial
  | cons c cs ih =>
    refine ⟨?_, ih (fun ch hch => hw ch (List.mem_cons_of_mem c hch))⟩
    have hc : c ≠ '_' := hw c (List.mem_cons_self c cs)
    show leadsWith (placeholderStr j) (c :: (cs ++ Y)) = false
    show leadsWith (('_' :: '_' :: ("CITATION_".toList)) ++ natStr j ++ ("__".toList))
      (c :: (cs ++ Y)) = false
    simp only [List.cons_append, leadsWith]
    simp [hc.symm]

theorem noHit_append {pat : Str} {A B Y : Str}
    (hA : NoHit pat A (B ++ Y)) (hB : NoHit pat B Y) : NoHit pat (A ++ B) Y := by
  induction A with
  | nil => exact hB
  | cons c cs ih =>
    obtain ⟨h1, h2⟩ := hA
    refine ⟨?_, ih h2⟩
    simpa [List.append_assoc] using h1

/-! ### Decimal printer facts -/

theorem natStrGo_digits :
    ∀ (f n : ℕ), n < f → ∀ c ∈ natStrGo f n, c.isDigit = true := by
  intro f
  induction f with
  | zero => intro n hn; omega
  | succ f' ih =>
    intro n hn c hc
    have hten : ∀ m, m < 10 → (Nat.digitChar m).isDigit = true := by decide
    simp only [natStrGo] at hc
    by_cases h10 : n < 10
    · rw [if_pos h10] at hc
      rw [List.mem_singleton] at hc
      subst hc
      exact hten n h10
    · rw [if_neg h10] at hc
      rcases List.mem_append.mp hc with h | h
      · refine ih (n / 10) ?_ c h
        have := Nat.div_lt_self (by omega : 0 < n) (by omega : 1 < 10)
        omega
      · rw [List.mem_singleton] at h
        subst h
        exact hten (n % 10) (Nat.mod_lt n (by omega))

theorem natStr_digits {n : ℕ} : ∀ c ∈ natStr n, c.isDigit = true :=
  natStrGo_digits (n + 1) n (by omega)

theorem natStr_ne_nil (n : ℕ) : natStr n ≠ [] := by
  unfold natStr natStrGo
  by_cases h10 : n < 10
  · rw [if_pos h10]; simp
  · rw [if_neg h10]; simp

/-- Reading the decimal string back. -/
def digitsToNat (s : Str) : ℕ := s.foldl (fun a c => a * 10 + (c.toNat - 48)) 0

theorem natStrGo_val :
    ∀ (f n : ℕ), n < f → ∀ a : ℕ,
      (natStrGo f n).foldl (fun a c => a * 10 + (c.toNat - 48)) a = a * 10 ^ (natStrGo f n).length + n := by
  intro f
  induction f with
  | zero => intro n hn; omega
  | succ f' ih =>
    intro n hn a
    have hten : ∀ m, m < 10 → (Nat.digitChar m).toNat - 48 = m := by decide
    simp only [natStrGo]
    by_cases h10 : n < 10
    · rw [if_pos h10]
      simp only [List.foldl_cons, List.foldl_nil, List.length_singleton, pow_one]
      rw [hten n h10]
    · rw [if_neg h10]
      rw [List.foldl_append]
      have hrec : n / 10 < f' := by
        have := Nat.div_lt_self (by omega : 0 < n) (by omega : 1 < 10)
        omega
      rw [ih (n / 10) hrec a]
      simp only [List.foldl_cons, List.foldl_nil, List.length_append,
        List.length_singleton]
      rw [hten (n % 10) (Nat.mod_lt n (by omega))]
      rw [pow_succ]
      have h1 : 10 * (n / 10) + n % 10 = n := Nat.div_add_mod n 10
      generalize n / 10 = q at h1 ⊢
      generalize n % 10 = r at h1 ⊢
      rw [← h1]
      ring

theorem digitsToNat_natStr (n : ℕ) : digitsToNat (natStr n) = n := by
  unfold digitsToNat natStr
  rw [natStrGo_val (n + 1) n (by omega) 0]
  simp

theorem natStr_inj {m n : ℕ} (h : natStr m = natStr n) : m = n := by
  have := congrArg digitsToNat h
  rwa [digitsToNat_natStr, digitsToNat_natStr] at this

/-! ### Placeholder token structure -/

/-- The tail of a placeholder after its two leading underscores. -/
def citTail (j : ℕ) : Str := ("CITATION_".toList) ++ natStr j ++ ("__".toList)

theorem placeholderStr_eq (j : ℕ) :
    placeholderStr j = '_' :: '_' :: citTail j := by
  show ("__CITATION_".toList) ++ natStr j ++ ("__".toList) = _
  show ('_' :: '_' :: ("CITATION_".toList)) ++ natStr j ++ ("__".toList) = _
  simp [citTail]

theorem placeholderStr_ne_nil (j : ℕ) : placeholderStr j ≠ [] := by
  rw [placeholderStr_eq]; simp

theorem placeholder_chars {j : ℕ} :
    ∀ c ∈ placeholderStr j, c = '_' ∨ c.isUpper = true ∨ c.isDigit = true := by
  intro c hc
  rw [placeholderStr_eq, citTail] at hc
  simp only [List.mem_cons, List.mem_append] at hc
  have hcit : ∀ x ∈ ("CITATION_".toList), x = '_' ∨ x.isUpper = true ∨ x.isDigit = true := by
    decide
  have hund : ∀ x ∈ ("__".toList), x = '_' ∨ x.isUpper = true ∨ x.isDigit = true := by
    decide
  rcases hc with rfl | rfl | (hc | hc) | hc
  · exact Or.inl rfl
  · exact Or.inl rfl
  · exact hcit c hc
  · exact Or.inr (Or.inr (natStr_digits c hc))
  · exact hund c hc

/-- Comparing two digit runs that are each followed by an underscore. -/
theorem digitRun {a b x y : Str}
    (ha : ∀ c ∈ a, c.isDigit = true) (hb : ∀ c ∈ b, c.isDigit = true)
    (h : leadsWith (a ++ '_' :: x) (b ++ '_' :: y) = true) : a = b := by
  induction a generalizing b with
  | nil =>
    cases b with
    | nil => rfl
    | cons d b' =>
      exfalso
      simp only [List.nil_append, List.cons_append, leadsWith, Bool.and_eq_true,
        decide_eq_true_eq] at h
      have : d.isDigit = true := hb d (by simp)
      rw [← h.1] at this
      exact absurd this (by decide)
  | cons c a' ih =>
    cases b with
    | nil =>
      exfalso
      simp only [List.cons_append, List.nil_append, leadsWith, Bool.and_eq_true,
        decide_eq_true_eq] at h
      have : c.isDigit = true := ha c (by simp)
      rw [h.1] at this
      exact absurd this (by decide)
    | cons d b' =>
      simp only [List.cons_append, leadsWith, Bool.and_eq_true, decide_eq_true_eq] at h
      rw [ih (fun z hz => ha z (by simp [hz])) (fun z hz => hb z (by simp [hz])) h.2, h.1]

/-! ### The interleave skeleton of the working text -/

/-- The working text during protect/restore: an initial literal piece followed
by alternating (token, piece) pairs. -/
inductive Chain where
  | last (p : Str)
  | cons (p : Str) (k : ℕ) (rest : Chain)

/-- A literal piece carries no fragment of a placeholder's marker. -/
def PieceOK (p : Str) : Prop := containsStr p ("CITATION_".toList) = false

/-- A protected citation string: nonempty, starts with a bracket, and contains
no underscore (so it cannot interfere with placeholder tokens). -/
def CiteOK (c : Str) : Prop :=
  (∃ h t, c = h :: t ∧ (h = '(' ∨ h = '[')) ∧ ∀ x ∈ c, x ≠ '_'

def ChainOK (n : ℕ) : Chain → Prop
  | .last p => PieceOK p
  | .cons p k rest => PieceOK p ∧ k < n ∧ ChainOK n rest

def CitesOK (cites : List Str) : Prop := ∀ c ∈ cites, CiteOK c

/-- Rendering of token `k` after the first `j` tokens have been restored. -/
def tokR (j : ℕ) (cites : List Str) (k : ℕ) : Str :=
  if k < j then cites.getD k [] else placeholderStr k

/-- The text after the first `j` placeholders have been substituted back. -/
def chainStage (j : ℕ) (cites : List Str) : Chain → Str
  | .last p => p
  | .cons p k rest => p ++ tokR j cites k ++ chainStage j cites rest

/-- The fully protected text: every token renders as its placeholder. -/
def chainProtect : Chain → Str
  | .last p => p
  | .cons p k rest => p ++ placeholderStr k ++ chainProtect rest

/-- Everything after the leading literal piece. -/
def chainAfter (j : ℕ) (cites : List Str) : Chain → Str
  | .last _ => []
  | .cons _ k rest => tokR j cites k ++ chainStage j cites rest

def chainHead : Chain → Str
  | .last p => p
  | .cons p _ _ => p

theorem chainStage_decomp (j : ℕ) (cites : List Str) (ch : Chain) :
    chainStage j cites ch = chainHead ch ++ chainAfter j cites ch := by
  cases ch with
  | last p => simp [chainStage, chainHead, chainAfter]
  | cons p k rest => simp [chainStage, chainHead, chainAfter]

theorem chainProtect_eq_stage_zero (cites : List Str) :
    ∀ ch : Chain, chainProtect ch = chainStage 0 cites ch := by
  intro ch
  induction ch with
  | last p => rfl
  | cons p k rest ih =>
    simp only [chainProtect, chainStage, tokR, Nat.not_lt_zero, if_false, ih]

/-- The association list handed to `restore_citations`, starting at index `j`. -/
def phsOfFrom : ℕ → List Str → List (Str × Str)
  | _, [] => []
  | j, c :: cs => (placeholderStr j, c) :: phsOfFrom (j + 1) cs

theorem phsOfFrom_snoc (m : Str) :
    ∀ (cs : List Str) (j : ℕ),
      phsOfFrom j (cs ++ [m]) = phsOfFrom j cs ++ [(placeholderStr (j + cs.length), m)] := by
  intro cs
  induction cs with
  | nil => intro j; simp [phsOfFrom]
  | cons c cs' ih =>
    intro j
    show (placeholderStr j, c) :: phsOfFrom (j + 1) (cs' ++ [m]) =
      ((placeholderStr j, c) :: phsOfFrom (j + 1) cs') ++
        [(placeholderStr (j + (cs'.length + 1)), m)]
    rw [ih (j + 1)]
    simp only [List.cons_append]
    rw [show j + 1 + cs'.length = j + (cs'.length + 1) from by omega]

/-! ### Where placeholder patterns can sit inside a staged text -/

theorem pieceOK_nil : PieceOK [] := by
  show containsStr [] (("CITATION_").toList) = false
  decide

theorem pieceOK_of_cons {c : Char} {p : Str} (h : PieceOK (c :: p)) : PieceOK p := by
  cases hc : containsStr p (("CITATION_").toList) with
  | false => exact hc
  | true => exact absurd (containsStr_cons (c := c) hc) (by simp [PieceOK] at h; simp [h])

theorem pieceOK_append_left {A B : Str} (h : PieceOK (A ++ B)) : PieceOK A := by
  cases hc : containsStr A (("CITATION_").toList) with
  | false => exact hc
  | true => exact absurd (containsStr_mono_left B hc) (by simp [PieceOK] at h; simp [h])

theorem pieceOK_append_right {A B : Str} (h : PieceOK (A ++ B)) : PieceOK B := by
  cases hc : containsStr B (("CITATION_").toList) with
  | false => exact hc
  | true => exact absurd (containsStr_mono_right A hc) (by simp [PieceOK] at h; simp [h])

theorem chainHead_pieceOK {n : ℕ} {ch : Chain} (h : ChainOK n ch) :
    PieceOK (chainHead ch) := by
  cases ch with
  | last p => exact h
  | cons p k rest => exact h.1

theorem citeOK_getD {cites : List Str} (hc : CitesOK cites) {k : ℕ}
    (hk : k < cites.length) : CiteOK (cites.getD k []) := by
  rw [List.getD_eq_getElem cites [] hk]
  exact hc _ (List.getElem_mem hk)

/-- Any two-character window opening the after-piece region of a staged chain
is either a double underscore (a placeholder) or starts with a bracket (a
restored citation). -/
theorem afterHead {j : ℕ} {cites : List Str} (hc : CitesOK cites)
    (ch : Chain) (hok : ChainOK cites.length ch) {a b : Char} {w : Str}
    (h : leadsWith (a :: b :: w) (chainAfter j cites ch) = true) :
    (a = '_' ∧ b = '_') ∨ a = '(' ∨ a = '[' := by
  cases ch with
  | last p => simp [chainAfter, leadsWith] at h
  | cons p k rest =>
    simp only [chainAfter] at h
    by_cases hk : k < j
    · obtain ⟨⟨hh, tt, hcons, hpar⟩, hund⟩ := citeOK_getD hc hok.2.1
      rw [tokR, if_pos hk, hcons, List.cons_append] at h
      simp only [leadsWith, Bool.and_eq_true, decide_eq_true_eq] at h
      exact Or.inr (h.1 ▸ hpar)
    · rw [tokR, if_neg hk, placeholderStr_eq, List.cons_append, List.cons_append] at h
      simp only [leadsWith, Bool.and_eq_true, decide_eq_true_eq] at h
      exact Or.inl ⟨h.1, h.2.1⟩

/-- The marker tail `CITATION_<digits>__` never begins at a position formed by
a clean piece followed by the rest of a staged chain. -/
theorem no_citTail {j : ℕ} {cites : List Str} (hc : CitesOK cites)
    (ch : Chain) (hok : ChainOK cites.length ch) :
    ∀ (Q : Str), PieceOK Q →
      leadsWith (citTail j) (Q ++ chainAfter j cites ch) = false := by
  intro Q hQ
  cases hcon : leadsWith (citTail j) (Q ++ chainAfter j cites ch) with
  | false => rfl
  | true =>
    exfalso
    rcases leadsWith_split hcon with hlw | ⟨b', hb1, hb2, hb3⟩
    · obtain ⟨t, ht⟩ := leadsWith_iff.mp hlw
      have hcont : containsStr Q (("CITATION_").toList) = true := by
        rw [ht]
        unfold citTail
        exact containsStr_iff.mpr ⟨[], natStr j ++ ("__".toList) ++ t, by
          simp [List.append_assoc]⟩
      have hQ2 : containsStr Q (("CITATION_").toList) = false := hQ
      rw [hcont] at hQ2
      exact absurd hQ2 (by decide)
    · have hform : citTail j =
          'C' :: 'I' :: 'T' :: 'A' :: 'T' :: 'I' :: 'O' :: 'N' :: '_' ::
            (natStr j ++ ['_', '_']) := rfl
      rw [hform] at hb1
      obtain ⟨d, ds, hds⟩ : ∃ d ds, natStr j = d :: ds := by
        cases hnn : natStr j with
        | nil => exact absurd hnn (natStr_ne_nil j)
        | cons d ds => exact ⟨d, ds, rfl⟩
      have hddig : d.isDigit = true := natStr_digits d (by rw [hds]; exact List.mem_cons_self d ds)
      rcases Q with _ | ⟨q, Q⟩
      · rw [List.nil_append] at hb1
        subst hb1
        rcases afterHead hc ch hok hb3 with ⟨h1, h2⟩ | h1 | h1 <;>
          exact absurd h1 (by decide)
      rw [List.cons_append] at hb1
      injection hb1 with hq hb1
      subst hq
      rcases Q with _ | ⟨q, Q⟩
      · rw [List.nil_append] at hb1
        subst hb1
        rcases afterHead hc ch hok hb3 with ⟨h1, h2⟩ | h1 | h1 <;>
          exact absurd h1 (by decide)
      rw [List.cons_append] at hb1
      injection hb1 with hq hb1
      subst hq
      rcases Q with _ | ⟨q, Q⟩
      · rw [List.nil_append] at hb1
        subst hb1
        rcases afterHead hc ch hok hb3 with ⟨h1, h2⟩ | h1 | h1 <;>
          exact absurd h1 (by decide)
      rw [List.cons_append] at hb1
      injection hb1 with hq hb1
      subst hq
      rcases Q with _ | ⟨q, Q⟩
      · rw [List.nil_append] at hb1
        subst hb1
        rcases afterHead hc ch hok hb3 with ⟨h1, h2⟩ | h1 | h1 <;>
          exact absurd h1 (by decide)
      rw [List.cons_append] at hb1
      injection hb1 with hq hb1
      subst hq
      rcases Q with _ | ⟨q, Q⟩
      · rw [List.nil_append] at hb1
        subst hb1
        rcases afterHead hc ch hok hb3 with ⟨h1, h2⟩ | h1 | h1 <;>
          exact absurd h1 (by decide)
      rw [List.cons_append] at hb1
      injection hb1 with hq hb1
      subst hq
      rcases Q with _ | ⟨q, Q⟩
      · rw [List.nil_append] at hb1
        subst hb1
        rcases afterHead hc ch hok hb3 with ⟨h1, h2⟩ | h1 | h1 <;>
          exact absurd h1 (by decide)
      rw [List.cons_append] at hb1
      injection hb1 with hq hb1
      subst hq
      rcases Q with _ | ⟨q, Q⟩
      · rw [List.nil_append] at hb1
        subst hb1
        rcases afterHead hc ch hok hb3 with ⟨h1, h2⟩ | h1 | h1 <;>
          exact absurd h1 (by decide)
      rw [List.cons_append] at hb1
      injection hb1 with hq hb1
      subst hq
      rcases Q with _ | ⟨q, Q⟩
      · rw [List.nil_append] at hb1
        subst hb1
        rcases afterHead hc ch hok hb3 with ⟨h1, h2⟩ | h1 | h1 <;>
          exact absurd h1 (by decide)
      rw [List.cons_append] at hb1
      injection hb1 with hq hb1
      subst hq
      rcases Q with _ | ⟨q, Q⟩
      · -- eight characters consumed: the tail starts at the final marker
        -- underscore, so the next character must be a digit of the counter.
        rw [List.nil_append] at hb1
        subst hb1
        rw [hds, List.cons_append] at hb3
        rcases afterHead hc ch hok hb3 with ⟨h1, h2⟩ | h1 | h1
        · rw [h2] at hddig
          exact absurd hddig (by decide)
        · exact absurd h1 (by decide)
        · exact absurd h1 (by decide)
      rw [List.cons_append] at hb1
      injection hb1 with hq hb1
      subst hq
      -- nine characters consumed: the piece contains the whole marker.
      have hcont : containsStr ('C' :: 'I' :: 'T' :: 'A' :: 'T' :: 'I' :: 'O' ::
          'N' :: '_' :: Q) (("CITATION_").toList) = true :=
        containsStr_iff.mpr ⟨[], Q, rfl⟩
      have hQ2 : containsStr ('C' :: 'I' :: 'T' :: 'A' :: 'T' :: 'I' :: 'O' ::
          'N' :: '_' :: Q) (("CITATION_").toList) = false := hQ
      rw [hcont] at hQ2
      exact absurd hQ2 (by decide)

theorem no_citTail_stage {j : ℕ} {cites : List Str} (hc : CitesOK cites)
    (ch : Chain) (hok : ChainOK cites.length ch) :
    leadsWith (citTail j) (chainStage j cites ch) = false := by
  rw [chainStage_decomp]
  exact no_citTail hc ch hok (chainHead ch) (chainHead_pieceOK hok)

theorem no_underscore_citTail {j : ℕ} {cites : List Str} (hc : CitesOK cites)
    (ch : Chain) (hok : ChainOK cites.length ch) :
    leadsWith ('_' :: citTail j) (chainStage j cites ch) = false := by
  rw [chainStage_decomp]
  cases hp : chainHead ch with
  | nil =>
    simp only [List.nil_append]
    cases hcon : leadsWith ('_' :: citTail j) (chainAfter j cites ch) with
    | false => rfl
    | true =>
      exfalso
      have hform : ('_' :: citTail j) = '_' :: 'C' :: ('I' :: 'T' :: 'A' :: 'T' ::
          'I' :: 'O' :: 'N' :: '_' :: (natStr j ++ ['_', '_'])) := rfl
      rw [hform] at hcon
      rcases afterHead hc ch hok hcon with ⟨h1, h2⟩ | h1 | h1
      · exact absurd h2 (by decide)
      · exact absurd h1 (by decide)
      · exact absurd h1 (by decide)
  | cons c cs =>
    have hpo : PieceOK (c :: cs) := by rw [← hp]; exact chainHead_pieceOK hok
    rw [List.cons_append]
    show leadsWith ('_' :: citTail j) (c :: (cs ++ chainAfter j cites ch)) = false
    simp only [leadsWith]
    by_cases hcu : c = '_'
    · subst hcu
      rw [no_citTail hc ch hok cs (pieceOK_of_cons hpo)]
      simp
    · simp [Ne.symm hcu]

/-- A full placeholder token never begins strictly inside a clean piece. -/
theorem no_ph_at_piece {j : ℕ} {cites : List Str} (hc : CitesOK cites)
    (ch : Chain) (hok : ChainOK cites.length ch) :
    ∀ (Q : Str), PieceOK Q → Q ≠ [] →
      leadsWith (placeholderStr j) (Q ++ chainAfter j cites ch) = false := by
  intro Q hQ hne
  cases hcon : leadsWith (placeholderStr j) (Q ++ chainAfter j cites ch) with
  | false => rfl
  | true =>
    exfalso
    rcases leadsWith_split hcon with hlw | ⟨b', hb1, hb2, hb3⟩
    · obtain ⟨t, ht⟩ := leadsWith_iff.mp hlw
      have hcont : containsStr Q (("CITATION_").toList) = true := by
        rw [ht, placeholderStr_eq]
        unfold citTail
        exact containsStr_iff.mpr ⟨['_', '_'], natStr j ++ ("__".toList) ++ t, by
          simp [List.append_assoc]⟩
      have hQ2 : containsStr Q (("CITATION_").toList) = false := hQ
      rw [hcont] at hQ2
      exact absurd hQ2 (by decide)
    · have hform : placeholderStr j =
          '_' :: '_' :: 'C' :: 'I' :: 'T' :: 'A' :: 'T' :: 'I' :: 'O' :: 'N' :: '_' ::
            (natStr j ++ ['_', '_']) := rfl
      rw [hform] at hb1
      obtain ⟨d, ds, hds⟩ : ∃ d ds, natStr j = d :: ds := by
        cases hnn : natStr j with
        | nil => exact absurd hnn (natStr_ne_nil j)
        | cons d ds => exact ⟨d, ds, rfl⟩
      have hddig : d.isDigit = true :=
        natStr_digits d (by rw [hds]; exact List.mem_cons_self d ds)
      rcases Q with _ | ⟨q, Q⟩
      · exact absurd rfl hne
      rw [List.cons_append] at hb1
      injection hb1 with hq hb1
      subst hq
      rcases Q with _ | ⟨q, Q⟩
      · -- one underscore consumed
        rw [List.nil_append] at hb1
        subst hb1
        rcases afterHead hc ch hok hb3 with ⟨h1, h2⟩ | h1 | h1
        · exact absurd h2 (by decide)
        · exact absurd h1 (by decide)
        · exact absurd h1 (by decide)
      rw [List.cons_append] at hb1
      injection hb1 with hq hb1
      subst hq
      rcases Q with _ | ⟨q, Q⟩
      · -- two underscores consumed: the marker tail would have to start the
        -- after-region, which `no_citTail` (with an empty piece) refutes.
        rw [List.nil_append] at hb1
        subst hb1
        have hct := no_citTail (j := j) hc ch hok [] pieceOK_nil
        rw [List.nil_append] at hct
        have hb3' : leadsWith (citTail j) (chainAfter j cites ch) = true := hb3
        rw [hct] at hb3'
        exact absurd hb3' (by decide)
      rw [List.cons_append] at hb1
      injection hb1 with hq hb1
      subst hq
      rcases Q with _ | ⟨q, Q⟩
      · rw [List.nil_append] at hb1
        subst hb1
        rcases afterHead hc ch hok hb3 with ⟨h1, h2⟩ | h1 | h1 <;>
          exact absurd h1 (by decide)
      rw [List.cons_append] at hb1
      injection hb1 with hq hb1
      subst hq
      rcases Q with _ | ⟨q, Q⟩
      · rw [List.nil_append] at hb1
        subst hb1
        rcases afterHead hc ch hok hb3 with ⟨h1, h2⟩ | h1 | h1 <;>
          exact absurd h1 (by decide)
      rw [List.cons_append] at hb1
      injection hb1 with hq hb1
      subst hq
      rcases Q with _ | ⟨q, Q⟩
      · rw [List.nil_append] at hb1
        subst hb1
        rcases afterHead hc ch hok hb3 with ⟨h1, h2⟩ | h1 | h1 <;>
          exact absurd h1 (by decide)
      rw [List.cons_append] at hb1
      injection hb1 with hq hb1
      subst hq
      rcases Q with _ | ⟨q, Q⟩
      · rw [List.nil_append] at hb1
        subst hb1
        rcases afterHead hc ch hok hb3 with ⟨h1, h2⟩ | h1 | h1 <;>
          exact absurd h1 (by decide)
      rw [List.cons_append] at hb1
      injection hb1 with hq hb1
      subst hq
      rcases Q with _ | ⟨q, Q⟩
      · rw [List.nil_append] at hb1
        subst hb1
        rcases afterHead hc ch hok hb3 with ⟨h1, h2⟩ | h1 | h1 <;>
          exact absurd h1 (by decide)
      rw [List.cons_append] at hb1
      injection hb1 with hq hb1
      subst hq
      rcases Q with _ | ⟨q, Q⟩
      · rw [List.nil_append] at hb1
        subst hb1
        rcases afterHead hc ch hok hb3 with ⟨h1, h2⟩ | h1 | h1 <;>
          exact absurd h1 (by decide)
      rw [List.cons_append] at hb1
      injection hb1 with hq hb1
      subst hq
      rcases Q with _ | ⟨q, Q⟩
      · rw [List.nil_append] at hb1
        subst hb1
        rcases afterHead hc ch hok hb3 with ⟨h1, h2⟩ | h1 | h1 <;>
          exact absurd h1 (by decide)
      rw [List.cons_append] at hb1
      injection hb1 with hq hb1
      subst hq
      rcases Q with _ | ⟨q, Q⟩
      · -- ten characters consumed: the final marker underscore is next, then
        -- a digit of the counter must match the after-region's head.
        rw [List.nil_append] at hb1
        subst hb1
        rw [hds, List.cons_append] at hb3
        rcases afterHead hc ch hok hb3 with ⟨h1, h2⟩ | h1 | h1
        · rw [h2] at hddig
          exact absurd hddig (by decide)
        · exact absurd h1 (by decide)
        · exact absurd h1 (by decide)
      rw [List.cons_append] at hb1
      injection hb1 with hq hb1
      subst hq
      -- eleven characters consumed: the piece contains the whole marker.
      have hcont : containsStr ('_' :: '_' :: 'C' :: 'I' :: 'T' :: 'A' :: 'T' ::
          'I' :: 'O' :: 'N' :: '_' :: Q) (("CITATION_").toList) = true :=
        containsStr_iff.mpr ⟨['_', '_'], Q, rfl⟩
      have hQ2 : containsStr ('_' :: '_' :: 'C' :: 'I' :: 'T' :: 'A' :: 'T' ::
          'I' :: 'O' :: 'N' :: '_' :: Q) (("CITATION_").toList) = false := hQ
      rw [hcont] at hQ2
      exact absurd hQ2 (by decide)

theorem citNine_eq : ("CITATION_").toList = ['C', 'I', 'T', 'A', 'T', 'I', 'O', 'N', '_'] := rfl

theorem undTwo_eq : ("__").toList = ['_', '_'] := rfl

theorem citEleven_eq :
    ("__CITATION_").toList = ['_', '_', 'C', 'I', 'T', 'A', 'T', 'I', 'O', 'N', '_'] := rfl

theorem placeholderStr_cons (j : ℕ) :
    placeholderStr j = '_' :: '_' :: 'C' :: 'I' :: 'T' :: 'A' :: 'T' :: 'I' :: 'O' ::
      'N' :: '_' :: (natStr j ++ ['_', '_']) := rfl

theorem leadsWith_cancel : ∀ (w a b : Str), leadsWith (w ++ a) (w ++ b) = leadsWith a b := by
  intro w a b
  induction w with
  | nil => rfl
  | cons c cs ih => simp [leadsWith, ih]

/-- Distinct placeholder tokens never shadow each other, even with arbitrary
text following. -/
theorem ph_vs_ph {j k : ℕ} (hjk : j ≠ k) (Y : Str) :
    leadsWith (placeholderStr j) (placeholderStr k ++ Y) = false := by
  have e1 : placeholderStr j =
      (['_', '_', 'C', 'I', 'T', 'A', 'T', 'I', 'O', 'N', '_'] : Str) ++
        (natStr j ++ ['_', '_']) := by
    unfold placeholderStr
    rw [citEleven_eq, undTwo_eq, List.append_assoc]
  have e2 : placeholderStr k ++ Y =
      (['_', '_', 'C', 'I', 'T', 'A', 'T', 'I', 'O', 'N', '_'] : Str) ++
        (natStr k ++ ('_' :: '_' :: Y)) := by
    unfold placeholderStr
    rw [citEleven_eq, undTwo_eq, List.append_assoc, List.append_assoc]
    rfl
  rw [e1, e2, leadsWith_cancel]
  cases hcon : leadsWith (natStr j ++ ['_', '_']) (natStr k ++ ('_' :: '_' :: Y)) with
  | false => rfl
  | true =>
    exfalso
    have heq := digitRun (fun c hc => natStr_digits c hc) (fun c hc => natStr_digits c hc)
      (show leadsWith (natStr j ++ '_' :: ['_']) (natStr k ++ '_' :: ('_' :: Y)) = true
        from hcon)
    exact hjk (natStr_inj heq)

theorem not_contains_ph {p : Str} (hp : PieceOK p) (j : ℕ) :
    containsStr p (placeholderStr j) = false := by
  cases hcon : containsStr p (placeholderStr j) with
  | false => rfl
  | true =>
    exfalso
    obtain ⟨A, B, hAB⟩ := containsStr_iff.mp hcon
    have hc9 : containsStr p (("CITATION_").toList) = true := by
      rw [hAB, placeholderStr_cons]
      refine containsStr_iff.mpr ⟨A ++ ['_', '_'], natStr j ++ ['_', '_'] ++ B, ?_⟩
      rw [citNine_eq]
      simp [List.append_assoc]
    have hp2 : containsStr p (("CITATION_").toList) = false := hp
    rw [hc9] at hp2
    exact absurd hp2 (by decide)

theorem pieceNoHit {j : ℕ} {cites : List Str} (hc : CitesOK cites)
    (ch : Chain) (hok : ChainOK cites.length ch) :
    ∀ (P : Str), PieceOK P → NoHit (placeholderStr j) P (chainAfter j cites ch) := by
  intro P
  induction P with
  | nil => intro _; trivial
  | cons c cs ih =>
    intro hP
    exact ⟨no_ph_at_piece hc ch hok (c :: cs) hP (by simp), ih (pieceOK_of_cons hP)⟩

theorem tokNoHit {j k : ℕ} {cites : List Str} (hc : CitesOK cites)
    (ch : Chain) (hok : ChainOK cites.length ch)
    (hkj : k ≠ j) (hk : k < cites.length) :
    NoHit (placeholderStr j) (tokR j cites k) (chainStage j cites ch) := by
  by_cases hlt : k < j
  · rw [tokR, if_pos hlt]
    exact noHit_of_no_underscore _ (citeOK_getD hc hk).2
  · rw [tokR, if_neg hlt]
    have hdigu : ∀ x ∈ natStr k, x ≠ '_' := by
      intro x hx he
      have := natStr_digits x hx
      rw [he] at this
      exact absurd this (by decide)
    have hnd : ∃ d ds, natStr k = d :: ds := by
      cases hnn : natStr k with
      | nil => exact absurd hnn (natStr_ne_nil k)
      | cons d ds => exact ⟨d, ds, rfl⟩
    obtain ⟨d, ds, hds⟩ := hnd
    have hddig : d.isDigit = true :=
      natStr_digits d (by rw [hds]; exact List.mem_cons_self d ds)
    have hdecomp : placeholderStr k =
        ((['_', '_', 'C', 'I', 'T', 'A', 'T', 'I', 'O', 'N', '_'] : Str) ++ natStr k) ++
          ['_', '_'] := by
      unfold placeholderStr
      rw [citEleven_eq, undTwo_eq]
    rw [hdecomp]
    apply noHit_append
    · apply noHit_append
      · -- the eleven-character marker head of the token
        refine ⟨?_, ?_, ?_, ?_, ?_, ?_, ?_, ?_, ?_, ?_, ?_, trivial⟩
        · -- the full token: only an identical counter could continue the match
          have e : (['_', '_', 'C', 'I', 'T', 'A', 'T', 'I', 'O', 'N', '_'] : Str) ++
              (natStr k ++ (['_', '_'] ++ chainStage j cites ch)) =
              placeholderStr k ++ chainStage j cites ch := by
            unfold placeholderStr
            rw [citEleven_eq, undTwo_eq, List.append_assoc, List.append_assoc]
          rw [e]
          exact ph_vs_ph (fun he => hkj he.symm) _
        · rw [placeholderStr_cons]
          simp [leadsWith]
        · rw [placeholderStr_cons]
          simp [leadsWith]
        · rw [placeholderStr_cons]
          simp [leadsWith]
        · rw [placeholderStr_cons]
          simp [leadsWith]
        · rw [placeholderStr_cons]
          simp [leadsWith]
        · rw [placeholderStr_cons]
          simp [leadsWith]
        · rw [placeholderStr_cons]
          simp [leadsWith]
        · rw [placeholderStr_cons]
          simp [leadsWith]
        · rw [placeholderStr_cons]
          simp [leadsWith]
        · -- the marker's final underscore: a counter digit follows
          rw [placeholderStr_cons, hds]
          have hdu : ¬ ('_' : Char) = d := by
            intro he
            rw [← he] at hddig
            exact absurd hddig (by decide)
          simp [leadsWith, hdu]
      · exact noHit_of_no_underscore _ hdigu
    · -- the trailing double underscore of the token
      refine ⟨?_, ?_, trivial⟩
      · rw [placeholderStr_cons]
        show leadsWith _ ('_' :: '_' :: chainStage j cites ch) = false
        simp only [leadsWith, Bool.and_eq_true, decide_eq_true_eq]
        have hct := no_citTail_stage (j := j) hc ch hok
        rw [show ('C' :: 'I' :: 'T' :: 'A' :: 'T' :: 'I' :: 'O' :: 'N' :: '_' ::
          (natStr j ++ ['_', '_'])) = citTail j from rfl, hct]
        simp
      · rw [placeholderStr_cons]
        show leadsWith _ ('_' :: chainStage j cites ch) = false
        simp only [leadsWith, Bool.and_eq_true, decide_eq_true_eq]
        have hct := no_underscore_citTail (j := j) hc ch hok
        rw [show ('_' :: 'C' :: 'I' :: 'T' :: 'A' :: 'T' :: 'I' :: 'O' :: 'N' :: '_' ::
          (natStr j ++ ['_', '_'])) = '_' :: citTail j from rfl, hct]
        simp

/-- Substituting the `j`-th placeholder back advances the staged text by one
restoration step. -/
theorem replaceAll_stage {cites : List Str} (hc : CitesOK cites) {j : ℕ}
    (hj : j < cites.length) :
    ∀ ch : Chain, ChainOK cites.length ch →
      replaceAll (chainStage j cites ch) (placeholderStr j) (cites.getD j [])
        = chainStage (j + 1) cites ch := by
  intro ch
  induction ch with
  | last p =>
    intro hok
    exact replaceAll_no_occ _ (not_contains_ph hok j)
  | cons p k rest ih =>
    intro hok
    obtain ⟨hp, hk, hrest⟩ := hok
    show replaceAll (p ++ tokR j cites k ++ chainStage j cites rest) _ _ = _
    rw [List.append_assoc]
    have hnh : NoHit (placeholderStr j) p (tokR j cites k ++ chainStage j cites rest) :=
      pieceNoHit hc (.cons p k rest) ⟨hp, hk, hrest⟩ p hp
    rw [replaceAll_skip _ p _ hnh]
    by_cases hkj : k = j
    · subst hkj
      rw [show tokR k cites k = placeholderStr k from by
        unfold tokR
        rw [if_neg (lt_irrefl k)]]
      rw [replaceAll_hit _ _ (placeholderStr_ne_nil k)]
      rw [ih hrest]
      show _ = p ++ tokR (k + 1) cites k ++ chainStage (k + 1) cites rest
      rw [show tokR (k + 1) cites k = cites.getD k [] from by
        rw [tokR, if_pos (by omega)]]
      rw [List.append_assoc]
    · rw [replaceAll_skip _ _ _ (tokNoHit hc rest hrest hkj hk)]
      rw [ih hrest]
      show _ = p ++ tokR (j + 1) cites k ++ chainStage (j + 1) cites rest
      rw [show tokR (j + 1) cites k = tokR j cites k from by
        unfold tokR
        rcases Nat.lt_or_ge k j with h | h
        · rw [if_pos h, if_pos (by omega)]
        · rw [if_neg (by omega), if_neg (by omega)]]
      rw [List.append_assoc]

theorem restore_fold :
    ∀ (suffix pre : List Str) (ch : Chain),
      CitesOK (pre ++ suffix) → ChainOK (pre ++ suffix).length ch →
      List.foldl (fun t pc => replaceAll t pc.1 pc.2)
        (chainStage pre.length (pre ++ suffix) ch) (phsOfFrom pre.length suffix)
        = chainStage (pre ++ suffix).length (pre ++ suffix) ch := by
  intro suffix
  induction suffix with
  | nil =>
    intro pre ch hc hok
    simp [phsOfFrom]
  | cons c cs ih =>
    intro pre ch hc hok
    simp only [phsOfFrom, List.foldl_cons]
    have hj : pre.length < (pre ++ c :: cs).length := by simp
    have hgd : (pre ++ c :: cs).getD pre.length [] = c := by
      rw [List.getD_eq_getElem _ _ hj]
      rw [List.getElem_append_right (le_refl pre.length)]
      simp
    have hstep : replaceAll (chainStage pre.length (pre ++ c :: cs) ch)
        (placeholderStr pre.length) c
        = chainStage (pre.length + 1) (pre ++ c :: cs) ch := by
      have hra := replaceAll_stage hc (j := pre.length) hj ch hok
      rwa [hgd] at hra
    rw [hstep]
    have hrec := ih (pre ++ [c]) ch (by simpa [List.append_assoc] using hc)
      (by simpa [List.append_assoc] using hok)
    simpa [List.append_assoc] using hrec

/-- Restoration undoes protection on any faithfully staged chain. -/
theorem restore_chain (cites : List Str) (ch : Chain)
    (hc : CitesOK cites) (hok : ChainOK cites.length ch) :
    restore_citations (chainProtect ch) (phsOfFrom 0 cites)
      = chainStage cites.length cites ch := by
  have hrf := restore_fold cites [] ch (by simpa using hc) (by simpa using hok)
  simpa [restore_citations, chainProtect_eq_stage_zero cites] using hrf

theorem chainOK_mono {n m : ℕ} (hnm : n ≤ m) :
    ∀ {ch : Chain}, ChainOK n ch → ChainOK m ch := by
  intro ch
  induction ch with
  | last p => exact fun h => h
  | cons p k rest ih =>
    intro h
    obtain ⟨h1, h2, h3⟩ := h
    exact ⟨h1, by omega, ih h3⟩

/-- Appending a fresh citation to the table does not change the full
restoration of a chain whose tokens all predate it. -/
theorem stage_snoc {cites : List Str} {mm : Str} :
    ∀ {ch : Chain}, ChainOK cites.length ch →
      chainStage (cites.length + 1) (cites ++ [mm]) ch
        = chainStage cites.length cites ch := by
  intro ch
  induction ch with
  | last p => intro _; rfl
  | cons p k rest ih =>
    intro h
    obtain ⟨h1, h2, h3⟩ := h
    simp only [chainStage, ih h3]
    have htok : tokR (cites.length + 1) (cites ++ [mm]) k = tokR cites.length cites k := by
      unfold tokR
      rw [if_pos (by omega), if_pos h2]
      rw [List.getD_eq_getElem _ _ (by simp; omega), List.getD_eq_getElem _ _ h2]
      exact List.getElem_append_left h2
    rw [htok]

/-- Replacing one free-standing occurrence of a clean citation text inside a
protected chain yields another chain, with a fresh token in its place. -/
theorem chain_insert {m : Str} (hm1 : ∃ h t, m = h :: t ∧ (h = '(' ∨ h = '['))
    (hm2 : ∀ x ∈ m, x ≠ '_') (n : ℕ) :
    ∀ (ch : Chain) (A B : Str), ChainOK n ch → chainProtect ch = A ++ m ++ B →
    ∃ ch', chainProtect ch' = A ++ placeholderStr n ++ B
      ∧ ChainOK (n + 1) ch'
      ∧ ∀ (cites' : List Str), cites'.getD n [] = m →
          chainStage (n + 1) cites' ch' = chainStage (n + 1) cites' ch := by
  intro ch
  induction ch with
  | last P =>
    intro A B hok hsplit
    have hP : PieceOK (A ++ m ++ B) := by
      rw [← hsplit]
      exact hok
    refine ⟨.cons A n (.last B), rfl, ?_, ?_⟩
    · exact ⟨pieceOK_append_left (pieceOK_append_left hP), Nat.lt_succ_self n,
        pieceOK_append_right hP⟩
    · intro cites' hgd
      show A ++ tokR (n + 1) cites' n ++ B = chainStage (n + 1) cites' (.last P)
      rw [show tokR (n + 1) cites' n = cites'.getD n [] from by
        unfold tokR
        rw [if_pos (Nat.lt_succ_self n)]]
      rw [hgd]
      exact hsplit.symm
  | cons P k rest ih =>
    intro A B hok hsplit
    obtain ⟨hP, hkn, hrest⟩ := hok
    have hsplit2 : P ++ (placeholderStr k ++ chainProtect rest) = A ++ (m ++ B) := by
      have hu : chainProtect (.cons P k rest) = P ++ placeholderStr k ++ chainProtect rest := rfl
      rw [hu] at hsplit
      simpa [List.append_assoc] using hsplit
    rcases List.append_eq_append_iff.mp hsplit2 with ⟨a', hA, hb⟩ | ⟨c', hPg, hd⟩
    · -- the occurrence begins at or after this link's token
      rcases List.append_eq_append_iff.mp hb with ⟨v, ha', hp2⟩ | ⟨v, hph, hmB⟩
      · -- strictly after the token: recurse into the rest of the chain
        obtain ⟨rest', h1, h2, h3⟩ := ih v B hrest (by
          rw [hp2]
          simp [List.append_assoc])
        refine ⟨.cons P k rest', ?_, ⟨hP, by omega, h2⟩, ?_⟩
        · show P ++ placeholderStr k ++ chainProtect rest' = _
          rw [h1, hA, ha']
          simp [List.append_assoc]
        · intro cites' hgd
          show P ++ tokR (n + 1) cites' k ++ chainStage (n + 1) cites' rest' = _
          rw [h3 cites' hgd]
          rfl
      · cases v with
        | nil =>
          -- the occurrence starts exactly after the token
          obtain ⟨rest', h1, h2, h3⟩ := ih [] B hrest (by
            rw [List.nil_append] at hmB
            rw [← hmB]
            simp)
          refine ⟨.cons P k rest', ?_, ⟨hP, by omega, h2⟩, ?_⟩
          · show P ++ placeholderStr k ++ chainProtect rest' = _
            rw [h1, hA, show a' = placeholderStr k from by
              rw [hph]
              simp]
            simp [List.append_assoc]
          · intro cites' hgd
            show P ++ tokR (n + 1) cites' k ++ chainStage (n + 1) cites' rest' = _
            rw [h3 cites' hgd]
            rfl
        | cons v0 v' =>
          -- the occurrence would have to start inside the token: impossible,
          -- since a citation starts with a bracket and tokens do not contain one
          exfalso
          obtain ⟨hh, tt, hcons, hpar⟩ := hm1
          rw [hcons, List.cons_append] at hmB
          injection hmB with hv0 _
          have hv0mem : v0 ∈ placeholderStr k := by
            rw [hph]
            exact List.mem_append.mpr (Or.inr (by simp))
          have hchar := placeholder_chars v0 hv0mem
          rw [← hv0] at hchar
          rcases hpar with rfl | rfl
          · rcases hchar with h | h | h
            · exact absurd h (by decide)
            · exact absurd h (by decide)
            · exact absurd h (by decide)
          · rcases hchar with h | h | h
            · exact absurd h (by decide)
            · exact absurd h (by decide)
            · exact absurd h (by decide)
    · -- the occurrence begins inside this link's leading piece
      rcases List.append_eq_append_iff.mp hd with ⟨u, hc', hB⟩ | ⟨u, hm', hd2⟩
      · -- it also ends inside the piece: split the piece in three
        have hPsp : P = A ++ m ++ u := by
          rw [hPg, hc']
          simp [List.append_assoc]
        have hPok : PieceOK (A ++ m ++ u) := by rw [← hPsp]; exact hP
        refine ⟨.cons A n (.cons u k rest), ?_, ?_, ?_⟩
        · show A ++ placeholderStr n ++ (u ++ placeholderStr k ++ chainProtect rest) = _
          rw [hB]
          simp [List.append_assoc]
        · exact ⟨pieceOK_append_left (pieceOK_append_left hPok), Nat.lt_succ_self n,
            pieceOK_append_right hPok, by omega, chainOK_mono (by omega) hrest⟩
        · intro cites' hgd
          show A ++ tokR (n + 1) cites' n ++ (u ++ tokR (n + 1) cites' k ++
            chainStage (n + 1) cites' rest) = _
          rw [show tokR (n + 1) cites' n = cites'.getD n [] from by
            unfold tokR
            rw [if_pos (Nat.lt_succ_self n)]]
          rw [hgd]
          show _ = P ++ tokR (n + 1) cites' k ++ chainStage (n + 1) cites' rest
          rw [hPsp]
          simp [List.append_assoc]
      · cases u with
        | nil =>
          -- the occurrence ends exactly at the piece boundary
          have hPsp : P = A ++ m := by
            rw [hPg, show c' = m from by rw [hm']; simp]
          have hPok : PieceOK (A ++ m) := by rw [← hPsp]; exact hP
          refine ⟨.cons A n (.cons [] k rest), ?_, ?_, ?_⟩
          · show A ++ placeholderStr n ++ ([] ++ placeholderStr k ++ chainProtect rest) = _
            rw [List.nil_append] at hd2
            rw [List.nil_append, hd2]
          · exact ⟨pieceOK_append_left hPok, Nat.lt_succ_self n, pieceOK_nil,
              by omega, chainOK_mono (by omega) hrest⟩
          · intro cites' hgd
            show A ++ tokR (n + 1) cites' n ++ ([] ++ tokR (n + 1) cites' k ++
              chainStage (n + 1) cites' rest) = _
            rw [show tokR (n + 1) cites' n = cites'.getD n [] from by
              unfold tokR
              rw [if_pos (Nat.lt_succ_self n)]]
            rw [hgd]
            show _ = P ++ tokR (n + 1) cites' k ++ chainStage (n + 1) cites' rest
            rw [hPsp]
            simp [List.append_assoc]
        | cons u0 u' =>
          -- the occurrence would spill from the piece into the token: its
          -- spill-over head would be the token's leading underscore
          exfalso
          have hu0 : u0 ∈ m := by
            rw [hm']
            exact List.mem_append.mpr (Or.inr (by simp))
          rw [placeholderStr_cons, List.cons_append] at hd2
          injection hd2 with hh _
          exact hm2 u0 hu0 hh.symm

/-! ### The citation patterns produce clean citation strings -/

/-- No underscore: the character property every citation pattern enforces. -/
def NUnd : Char → Prop := fun c => c ≠ '_'

theorem nund_rChar {c : Char} (hc : c ≠ '_') : ClsPred NUnd (rChar c) := by
  intro x hx
  have hxc : x = c := of_decide_eq_true hx
  rw [hxc]
  exact hc

theorem nund_rUpper : ClsPred NUnd rUpper := by
  intro c hc he
  subst he
  exact absurd hc (by decide)

theorem nund_rLowerAZ : ClsPred NUnd rLowerAZ := by
  intro c hc he
  subst he
  exact absurd hc (by decide)

theorem nund_rAlphaAZ : ClsPred NUnd rAlphaAZ := by
  intro c hc he
  subst he
  exact absurd hc (by decide)

theorem nund_rDigit : ClsPred NUnd rDigit := by
  intro c hc he
  subst he
  exact absurd hc (by decide)

theorem nund_rSpace : ClsPred NUnd rSpace := by
  intro c hc he
  subst he
  exact absurd hc (by decide)

theorem nund_dashComma : ClsPred NUnd (RE.cls (fun c => c = '-' || c = ',')) := by
  intro c hc he
  subst he
  exact absurd hc (by decide)

theorem nund_reName : ClsPred NUnd reName :=
  ⟨nund_rUpper, nund_rAlphaAZ, nund_rAlphaAZ⟩

theorem nund_reEtAl : ClsPred NUnd reEtAl :=
  ⟨nund_rChar (by decide), nund_rChar (by decide), ⟨nund_rSpace, nund_rSpace⟩,
    nund_rChar (by decide), nund_rChar (by decide), nund_rChar (by decide), trivial⟩

theorem nund_reConnector : ClsPred NUnd reConnector :=
  ⟨nund_reEtAl, nund_rChar (by decide),
    nund_rChar (by decide), nund_rChar (by decide), nund_rChar (by decide), trivial⟩

theorem nund_reMoreAuthors : ClsPred NUnd reMoreAuthors :=
  ⟨⟨nund_rSpace, nund_rSpace⟩, nund_reConnector, ⟨nund_rSpace, nund_rSpace⟩, nund_reName⟩

theorem nund_reYear4 : ClsPred NUnd reYear4 :=
  ⟨nund_rDigit, nund_rDigit, nund_rDigit, nund_rDigit⟩

theorem nund_citePat1 : ClsPred NUnd citePat1 :=
  ⟨nund_rChar (by decide), nund_reName, nund_reMoreAuthors,
    ⟨nund_rChar (by decide), trivial⟩, nund_rSpace, nund_reYear4,
    ⟨nund_rLowerAZ, trivial⟩, nund_rChar (by decide)⟩

theorem nund_citePat2 : ClsPred NUnd citePat2 :=
  ⟨nund_rChar (by decide), nund_reName, ⟨nund_rSpace, nund_rSpace⟩,
    nund_rChar (by decide), ⟨nund_rSpace, nund_rSpace⟩, nund_reName,
    ⟨nund_rChar (by decide), trivial⟩, nund_rSpace, nund_reYear4,
    nund_rChar (by decide)⟩

theorem nund_citePat3 : ClsPred NUnd citePat3 :=
  ⟨nund_rChar (by decide), ⟨nund_rDigit, nund_rDigit⟩,
    ⟨nund_dashComma, nund_rSpace, nund_rDigit, nund_rDigit⟩,
    nund_rChar (by decide)⟩

theorem nund_citePat4 : ClsPred NUnd citePat4 :=
  ⟨nund_rChar (by decide), nund_reName, nund_rChar (by decide), nund_rSpace,
    nund_reYear4, nund_rChar (by decide), nund_rSpace, nund_rChar (by decide),
    ⟨nund_rChar (by decide), trivial⟩, nund_rSpace,
    ⟨nund_rDigit, nund_rDigit⟩, nund_rChar (by decide)⟩

/-- Every match of a citation pattern opens with its bracket character. -/
theorem match_head_paren {r : RE} (hr : r ∈ CITATION_PATTERNS) {m : Str}
    (hm : RMatch r m) : ∃ h t, m = h :: t ∧ (h = '(' ∨ h = '[') := by
  simp only [CITATION_PATTERNS, List.mem_cons, List.not_mem_nil, or_false] at hr
  rcases hr with rfl | rfl | rfl | rfl
  · unfold citePat1 at hm
    cases hm with
    | seq hma hmb =>
      cases hma with
      | cls hp =>
        exact ⟨_, _, rfl, Or.inl (of_decide_eq_true hp)⟩
  · unfold citePat2 at hm
    cases hm with
    | seq hma hmb =>
      cases hma with
      | cls hp =>
        exact ⟨_, _, rfl, Or.inl (of_decide_eq_true hp)⟩
  · unfold citePat3 at hm
    cases hm with
    | seq hma hmb =>
      cases hma with
      | cls hp =>
        exact ⟨_, _, rfl, Or.inr (of_decide_eq_true hp)⟩
  · unfold citePat4 at hm
    cases hm with
    | seq hma hmb =>
      cases hma with
      | cls hp =>
        exact ⟨_, _, rfl, Or.inl (of_decide_eq_true hp)⟩

theorem citeOK_of_match {r : RE} (hr : r ∈ CITATION_PATTERNS) {m : Str}
    (hm : RMatch r m) : CiteOK m := by
  refine ⟨match_head_paren hr hm, ?_⟩
  have hcls : ClsPred NUnd r := by
    simp only [CITATION_PATTERNS, List.mem_cons, List.not_mem_nil, or_false] at hr
    rcases hr with rfl | rfl | rfl | rfl
    · exact nund_citePat1
    · exact nund_citePat2
    · exact nund_citePat3
    · exact nund_citePat4
  exact RMatch_chars hm hcls

/-- Everything `finditer` returns is a genuine match of the pattern. -/
theorem finditer_matches {r : RE} :
    ∀ (f : ℕ) (s : Str), ∀ m ∈ finditerGo f r s, RMatch r m := by
  intro f
  induction f with
  | zero =>
    intro s m hm
    simp [finditerGo] at hm
  | succ f' ih =>
    intro s m hm
    cases s with
    | nil => simp [finditerGo] at hm
    | cons c cs =>
      rcases htm : tryMatch r (c :: cs) with _ | ⟨mm, rest⟩
      · unfold finditerGo at hm
        rw [htm] at hm
        exact ih cs m hm
      · unfold finditerGo at hm
        rw [htm] at hm
        have hm' : m ∈ (if rest.length < (c :: cs).length
            then mm :: finditerGo f' r rest else mm :: finditerGo f' r cs) := hm
        clear hm
        rename' hm' => hm
        by_cases hlen : rest.length < (c :: cs).length
        · rw [if_pos hlen] at hm
          rcases List.mem_cons.mp hm with rfl | hm2
          · exact (tryMatch_sound htm).2
          · exact ih rest m hm2
        · rw [if_neg hlen] at hm
          rcases List.mem_cons.mp hm with rfl | hm2
          · exact (tryMatch_sound htm).2
          · exact ih cs m hm2

/-! ### The protect-phase invariant -/

/-- During `protect_citations`, the working state is always a protected chain
whose full restoration recovers the original text `T`. -/
def ProtInv (T : Str) (st : Str × (List (Str × Str) × ℕ)) : Prop :=
  ∃ ch cites, st.1 = chainProtect ch ∧ st.2.1 = phsOfFrom 0 cites ∧
    st.2.2 = cites.length ∧ ChainOK cites.length ch ∧ CitesOK cites ∧
    chainStage cites.length cites ch = T

theorem protect_step {T : Str} {m : Str} (hm : CiteOK m)
    {st : Str × (List (Str × Str) × ℕ)} (h : ProtInv T st) :
    ProtInv T (replaceFirst st.1 m (placeholderStr st.2.2),
      (st.2.1 ++ [(placeholderStr st.2.2, m)], st.2.2 + 1)) := by
  obtain ⟨ch, cites, h1, h2, h3, h4, h5, h6⟩ := h
  obtain ⟨hm1, hm2⟩ := hm
  have hgd : (cites ++ [m]).getD cites.length [] = m := by
    rw [List.getD_eq_getElem _ _ (by simp)]
    rw [List.getElem_append_right (le_refl cites.length)]
    simp
  have hco : CitesOK (cites ++ [m]) := by
    intro c hc
    rcases List.mem_append.mp hc with hcm | hcm
    · exact h5 c hcm
    · rw [List.mem_singleton] at hcm
      rw [hcm]
      exact ⟨hm1, hm2⟩
  by_cases hocc : containsStr st.1 m = true
  · have hmne : m ≠ [] := by
      obtain ⟨hh, tt, hcons, _⟩ := hm1
      rw [hcons]
      simp
    obtain ⟨A, B, hAB, hRes⟩ := replaceFirst_splice (placeholderStr st.2.2) hmne hocc
    rw [h1] at hAB
    obtain ⟨ch', hc1, hc2, hc3⟩ := chain_insert hm1 hm2 cites.length ch A B h4 hAB
    refine ⟨ch', cites ++ [m], ?_, ?_, ?_, ?_, hco, ?_⟩
    · show replaceFirst st.1 m (placeholderStr st.2.2) = _
      rw [hRes, h3]
      exact hc1.symm
    · show st.2.1 ++ [(placeholderStr st.2.2, m)] = _
      rw [h2, h3, phsOfFrom_snoc]
      simp
    · show st.2.2 + 1 = _
      rw [h3]
      simp
    · simpa using hc2
    · show chainStage (cites ++ [m]).length (cites ++ [m]) ch' = T
      rw [show (cites ++ [m]).length = cites.length + 1 from by simp]
      rw [hc3 (cites ++ [m]) hgd]
      rw [stage_snoc h4]
      exact h6
  · have hocc' : containsStr st.1 m = false := by
      cases hcv : containsStr st.1 m with
      | false => rfl
      | true => exact absurd hcv hocc
    refine ⟨ch, cites ++ [m], ?_, ?_, ?_, ?_, hco, ?_⟩
    · show replaceFirst st.1 m (placeholderStr st.2.2) = _
      rw [replaceFirst_no_occ _ hocc']
      exact h1
    · show st.2.1 ++ [(placeholderStr st.2.2, m)] = _
      rw [h2, h3, phsOfFrom_snoc]
      simp
    · show st.2.2 + 1 = _
      rw [h3]
      simp
    · exact chainOK_mono (by simp) h4
    · show chainStage (cites ++ [m]).length (cites ++ [m]) ch = T
      rw [show (cites ++ [m]).length = cites.length + 1 from by simp]
      rw [stage_snoc h4]
      exact h6

theorem protect_fold {T : Str} {r : RE} (hr : r ∈ CITATION_PATTERNS) :
    ∀ (ms : List Str), (∀ m ∈ ms, RMatch r m) →
    ∀ st, ProtInv T st →
      ProtInv T (ms.foldl (fun acc mm =>
        (replaceFirst acc.1 mm (placeholderStr acc.2.2),
          (acc.2.1 ++ [(placeholderStr acc.2.2, mm)], acc.2.2 + 1))) st) := by
  intro ms
  induction ms with
  | nil => intro _ st h; exact h
  | cons mm ms' ih =>
    intro hms st h
    simp only [List.foldl_cons]
    exact ih (fun m hm => hms m (by simp [hm])) _
      (protect_step (citeOK_of_match hr (hms mm (by simp))) h)

theorem protectPass_inv {T : Str} {r : RE} (hr : r ∈ CITATION_PATTERNS)
    {st : Str × (List (Str × Str) × ℕ)} (h : ProtInv T st) :
    ProtInv T (protectPass r st) :=
  protect_fold hr (finditer r st.1) (fun m hm => finditer_matches _ _ m hm) st h

/-- The protect phase yields a faithfully staged chain of the input text. -/
theorem protect_citations_inv (T : Str)
    (hT : containsStr T (("CITATION_").toList) = false) :
    ∃ ch cites,
      protect_citations T = (chainProtect ch, phsOfFrom 0 cites) ∧
      ChainOK cites.length ch ∧ CitesOK cites ∧
      chainStage cites.length cites ch = T := by
  have h0 : ProtInv T (T, ([], 0)) :=
    ⟨.last T, [], rfl, rfl, rfl, hT, by intro c hc; simp at hc, rfl⟩
  have hinv : ProtInv T
      (CITATION_PATTERNS.foldl (fun st r => protectPass r st) (T, ([], 0))) := by
    show ProtInv T (protectPass citePat4 (protectPass citePat3 (protectPass citePat2
      (protectPass citePat1 (T, ([], 0))))))
    refine protectPass_inv (by simp [CITATION_PATTERNS]) ?_
    refine protectPass_inv (by simp [CITATION_PATTERNS]) ?_
    refine protectPass_inv (by simp [CITATION_PATTERNS]) ?_
    exact protectPass_inv (by simp [CITATION_PATTERNS]) h0
  obtain ⟨ch, cites, h1, h2, h3, h4, h5, h6⟩ := hinv
  refine ⟨ch, cites, ?_, h4, h5, h6⟩
  show (_, _) = (chainProtect ch, phsOfFrom 0 cites)
  rw [← h1, ← h2]

/-- C2: the claimed unconditional round trip `restore(protect(T)) = T` fails.
A text that already carries a placeholder-shaped token — here
`"__CITATION_0__[1]"` — is protected to a state in which the pre-existing
token collides with the fresh one, and restoring yields `"[1][1]"`, not the
original text. -/
theorem C2_round_trip_counterexample :
    restore_citations (protect_citations (("__CITATION_0__[1]").toList)).1
      (protect_citations (("__CITATION_0__[1]").toList)).2
      ≠ (("__CITATION_0__[1]").toList) := by
  decide

/-- C2 (amended): for every text `T` that does not contain the marker
substring `"CITATION_"`, protecting citations and immediately restoring them
is the identity: `restore_citations` applied to the text and placeholder map
produced by `protect_citations T` returns `T`. -/
theorem C2_round_trip_amended (T : Str)
    (hT : containsStr T (("CITATION_").toList) = false) :
    restore_citations (protect_citations T).1 (protect_citations T).2 = T := by
  obtain ⟨ch, cites, h1, h2, h3, h4⟩ := protect_citations_inv T hT
  rw [h1]
  show restore_citations (chainProtect ch) (phsOfFrom 0 cites) = T
  rw [restore_chain cites ch h3 h2]
  exact h4

theorem C2_round_trip_amended_witness :
    containsStr (("See (Smith, 2020) and also [1].").toList) (("CITATION_").toList) = false ∧
    restore_citations
      (protect_citations (("See (Smith, 2020) and also [1].").toList)).1
      (protect_citations (("See (Smith, 2020) and also [1].").toList)).2
      = (("See (Smith, 2020) and also [1].").toList) :=
  ⟨by decide, C2_round_trip_amended (("See (Smith, 2020) and also [1].").toList) (by decide)⟩

end Humanise
